import Mathlib

/-!
# Buddy allocator (`src/buddy/buddy.c`)

A shallow embedding of the fixed-arena binary buddy allocator and the proofs of
the properties its specification states.

## Representation

* A pointer into the arena `g_memory` is the natural number `g_memory + offset`;
  the arena base `g_memory` is a parameter of every operation.  `NULL` is
  `none`.
* A pointer to a page record `&g_pages[i]` is the index `i`.  The intrusive list
  node of a page is identified with that index, so a free list is the list of
  the page indices linked into it, first element first.
* `int` values that are used as array indices or shift counts (`order`, `i`) are
  natural numbers; the `order` field of a record and the result of `find_order`
  are integers because both may hold the sentinel `-1`.
* The text `buddy_dump` writes to the standard output is the string its model
  returns, next to the state.
-/

namespace Buddy

/-! ## Constants and address macros -/

/-- The macro `MIN_ORDER`. -/
def MIN_ORDER : Nat := 12

/-- The macro `MAX_ORDER`. -/
def MAX_ORDER : Nat := 20

/-- The macro `PAGE_SIZE`, `1 << MIN_ORDER`. -/
def PAGE_SIZE : Nat := 1 <<< MIN_ORDER

/-- The macro `PAGE_TO_ADDR(page_idx)`, `page_idx * PAGE_SIZE + g_memory`. -/
def PAGE_TO_ADDR (g_memory page_idx : Nat) : Nat := page_idx * PAGE_SIZE + g_memory

/-- The macro `ADDR_TO_PAGE(addr)`, `(addr - g_memory) / PAGE_SIZE`. -/
def ADDR_TO_PAGE (g_memory addr : Nat) : Nat := (addr - g_memory) / PAGE_SIZE

/-- The macro `BUDDY_ADDR(addr, o)`, `((addr - g_memory) ^ (1 << o)) + g_memory`. -/
def BUDDY_ADDR (g_memory addr o : Nat) : Nat := ((addr - g_memory) ^^^ (1 <<< o)) + g_memory

/-! ## State -/

/-- The record `page_t` without its list node (the node is the page's index in
the free list it is linked into). -/
structure page_t where
  index : Int
  order : Int
  addr : Nat
  deriving DecidableEq

/-- The global variables: the page records `g_pages` and the free lists
`free_area`, one per order. -/
structure State where
  g_pages : Nat → page_t
  free_area : Nat → List Nat

/-- The assignment `g_pages[page].order = o`. -/
def set_order (s : State) (page : Nat) (o : Int) : State :=
  { s with g_pages := fun j => if j = page then { s.g_pages page with order := o } else s.g_pages j }

/-! ## List primitives -/

/-- Modelled from the spec: `list.h` is not among the sources.  `INIT_LIST_HEAD`
makes the free list of order `o` empty. -/
def INIT_LIST_HEAD (s : State) (o : Nat) : State :=
  { s with free_area := fun k => if k = o then [] else s.free_area k }

/-- Modelled from the spec: `list.h` is not among the sources.  `list_add` links
the node of `page` in right after the head of the free list of order `o`, so it
becomes the first element. -/
def list_add (s : State) (page o : Nat) : State :=
  { s with free_area := fun k => if k = o then page :: s.free_area o else s.free_area k }

/-- Modelled from the spec: `list.h` is not among the sources.  `list_del_init`
unlinks the node of `page` from the free list it is in; the node does not say
which list that is, so it is taken out of whichever list holds it. -/
def list_del_init (s : State) (page : Nat) : State :=
  { s with free_area := fun k => (s.free_area k).erase page }

/-! ## Operations -/

/-- The function `split`.  Each call with `order ≠ requested` marks the upper
half of the block as a block of order `order - 1`, puts it on the free list of
that order and goes on with the lower half.  The recursion is on `order`; in
the source a call with `order = 0 ≠ requested` would shift by `-1`, here it
returns. -/
def split (g_memory : Nat) (s : State) (page : Nat) : Nat → Nat → State
  | 0, _ => s
  | order + 1, requested =>
    if order + 1 = requested then s
    else
      let buddy := ADDR_TO_PAGE g_memory (BUDDY_ADDR g_memory (s.g_pages page).addr order)
      let s1 := set_order s buddy order
      let s2 := list_add s1 buddy order
      split g_memory s2 page order requested

/-- The loop of `find_order` at index `i` with `n` iterations left
(`n = MAX_ORDER + 1 - i`). -/
def find_order_loop (size : Int) : Nat → Nat → Int
  | 0, _ => -1
  | n + 1, i => if (((1 <<< i : Nat) : Int)) ≥ size then (i : Int) else find_order_loop size n (i + 1)

/-- The function `find_order`. -/
def find_order (size : Int) : Int :=
  find_order_loop size (MAX_ORDER + 1 - MIN_ORDER) MIN_ORDER

/-- The first loop of `buddy_init`: the record of page `i`, for every `i` below
`n`, gets index `i`, order `-1` and address `PAGE_TO_ADDR(i)`. -/
def init_pages (g_memory : Nat) (s : State) : Nat → State
  | 0 => s
  | n + 1 =>
    let s1 := init_pages g_memory s n
    { s1 with g_pages := fun j =>
        if j = n then { index := (n : Int), order := -1, addr := PAGE_TO_ADDR g_memory n }
        else s1.g_pages j }

/-- The second loop of `buddy_init`: `INIT_LIST_HEAD` on the free lists of
orders `i`, `i + 1`, ... for `n` iterations. -/
def init_lists (s : State) : Nat → Nat → State
  | 0, _ => s
  | n + 1, i => init_lists (INIT_LIST_HEAD s i) n (i + 1)

/-- The function `buddy_init`. -/
def buddy_init (g_memory : Nat) (s : State) : State :=
  let n_pages := (1 <<< MAX_ORDER) / PAGE_SIZE
  let s1 := init_pages g_memory s n_pages
  let s2 := set_order s1 0 MAX_ORDER
  let s3 := init_lists s2 (MAX_ORDER + 1 - MIN_ORDER) MIN_ORDER
  list_add s3 0 MAX_ORDER

/-- The loop of `buddy_alloc` at order `i` with `n` iterations left
(`n = MAX_ORDER + 1 - i`).  The result is the returned pointer and the state
after the call. -/
def buddy_alloc_loop (g_memory : Nat) (s : State) (req_order : Nat) : Nat → Nat → Option Nat × State
  | 0, _ => (none, s)
  | n + 1, i =>
    match s.free_area i with
    | [] => buddy_alloc_loop g_memory s req_order n (i + 1)
    | page :: _ =>
      let s1 := list_del_init s page
      let s2 := split g_memory s1 page i req_order
      let s3 := set_order s2 page req_order
      (some (s3.g_pages page).addr, s3)

/-- The function `buddy_alloc`. -/
def buddy_alloc (g_memory : Nat) (s : State) (size : Int) : Option Nat × State :=
  let req_order := find_order size
  if req_order = -1 then (none, s)
  else buddy_alloc_loop g_memory s req_order.toNat (MAX_ORDER + 1 - req_order.toNat) req_order.toNat

/-- The loop of `buddy_free` at order `i` with `n` iterations left
(`n = MAX_ORDER - i`).  The result is the state, the page and the order `i` at
the exit of the loop. -/
def buddy_free_loop (g_memory : Nat) : Nat → State → Nat → Nat → State × Nat × Nat
  | 0, s, page, i => (s, page, i)
  | n + 1, s, page, i =>
    let page_buddy := ADDR_TO_PAGE g_memory (BUDDY_ADDR g_memory (s.g_pages page).addr i)
    let freed := decide (page_buddy ∈ s.free_area i)
    if !freed then (s, page, i)
    else
      let s1 := list_del_init s page_buddy
      let page1 := if page_buddy < page then page_buddy else page
      buddy_free_loop g_memory n s1 page1 (i + 1)

/-- The function `buddy_free`. -/
def buddy_free (g_memory : Nat) (s : State) (addr : Nat) : State :=
  let page := ADDR_TO_PAGE g_memory addr
  let i0 := (s.g_pages page).order.toNat
  let r := buddy_free_loop g_memory (MAX_ORDER - i0) s page i0
  let s2 := set_order r.1 r.2.1 r.2.2
  list_add s2 r.2.1 r.2.2

/-! ## Blocks, the invariant and the reachable states -/

/-- The arena offset of page `p`. -/
def page_off (p : Nat) : Nat := p * PAGE_SIZE

/-- Block `(p, o)`: order within bounds, offset aligned to its size, inside the arena. -/
def blk_wf (p o : Nat) : Prop :=
  MIN_ORDER ≤ o ∧ o ≤ MAX_ORDER ∧ 2 ^ o ∣ page_off p ∧ page_off p + 2 ^ o ≤ 2 ^ MAX_ORDER

/-- Byte offset `x` lies in the range of block `(p, o)`. -/
def blk_in (x p o : Nat) : Prop := page_off p ≤ x ∧ x < page_off p + 2 ^ o

/-- The blocks `(p, o)` and `(q, o)` are the two halves of a block of order `o + 1`. -/
def buddies (p q o : Nat) : Prop :=
  (page_off q = page_off p + 2 ^ o ∧ 2 ^ (o + 1) ∣ page_off p) ∨
  (page_off p = page_off q + 2 ^ o ∧ 2 ^ (o + 1) ∣ page_off q)

/-- A set of blocks that partitions the arena. -/
structure Part (B : Nat → Nat → Prop) : Prop where
  wf : ∀ p o, B p o → blk_wf p o
  disj : ∀ p o q k x, B p o → B q k → blk_in x p o → blk_in x q k → p = q ∧ o = k
  cover : ∀ x, x < 2 ^ MAX_ORDER → ∃ p o, B p o ∧ blk_in x p o

/-- The page index the code computes for the buddy of page `p` at order `o`,
when the address of `p` is `PAGE_TO_ADDR(p)`. -/
def buddy_page (p o : Nat) : Nat := ((page_off p) ^^^ (2 ^ o)) / PAGE_SIZE

/-- The number of page records, `n_pages` of `buddy_init`. -/
def N_PAGES : Nat := (1 <<< MAX_ORDER) / PAGE_SIZE

/-- Page `p` is linked into the free list of order `o`, an order of the table. -/
def is_free (s : State) (p o : Nat) : Prop :=
  MIN_ORDER ≤ o ∧ o ≤ MAX_ORDER ∧ p ∈ s.free_area o

/-- Page `p` heads a live allocation whose record has order `o`. -/
def is_live (g : Nat) (s : State) (live : List Nat) (p o : Nat) : Prop :=
  PAGE_TO_ADDR g p ∈ live ∧ (s.g_pages p).order = (o : Int)

/-- The blocks of a state: the free ones, the live allocations and the block an
operation in progress holds (`pend`). -/
def is_block (g : Nat) (s : State) (live : List Nat) (pend : Option (Nat × Nat)) (p o : Nat) : Prop :=
  is_free s p o ∨ is_live g s live p o ∨ pend = some (p, o)

/-- The invariant: `live` lists the addresses handed out and not yet freed,
`pend` is the block held by a call in progress, if any. -/
structure Inv (g : Nat) (s : State) (live : List Nat) (pend : Option (Nat × Nat)) : Prop where
  addr : ∀ i, i < N_PAGES → (s.g_pages i).addr = PAGE_TO_ADDR g i
  live_nodup : live.Nodup
  live_page : ∀ a, a ∈ live → ∃ p o : Nat, a = PAGE_TO_ADDR g p ∧ (s.g_pages p).order = (o : Int)
  nodup : ∀ o, MIN_ORDER ≤ o → o ≤ MAX_ORDER → (s.free_area o).Nodup
  ford : ∀ p o, is_free s p o → (s.g_pages p).order = (o : Int)
  excl_fl : ∀ p o, is_free s p o → PAGE_TO_ADDR g p ∉ live
  excl_fp : ∀ p o k, is_free s p o → pend ≠ some (p, k)
  excl_lp : ∀ p k, pend = some (p, k) → PAGE_TO_ADDR g p ∉ live
  part : Part (is_block g s live pend)
  nobud : ∀ p q o, is_free s p o → is_free s q o → ¬ buddies p q o

/-- The state `buddy_alloc` leaves when it takes `page` from the free list of order `k`. -/
def alloc_state (g : Nat) (s : State) (page k req : Nat) : State :=
  set_order (split g (list_del_init s page) page k req) page req

/-- The states reached from `buddy_init` by a valid call sequence, each with the
list of the addresses `buddy_alloc` has returned and `buddy_free` has not yet
been given: any call of `buddy_alloc`, and `buddy_free` on such an address
only. -/
inductive Reachable (g : Nat) : State → List Nat → Prop
  | init (s0 : State) : Reachable g (buddy_init g s0) []
  | alloc (s : State) (live : List Nat) (size : Int) : Reachable g s live →
      Reachable g (buddy_alloc g s size).2 ((buddy_alloc g s size).1.toList ++ live)
  | free (s : State) (live : List Nat) (a : Nat) : Reachable g s live → a ∈ live →
      Reachable g (buddy_free g s a) (live.erase a)

/-- The page and the order of the block `buddy_free` puts on a free list. -/
def freed_block (g : Nat) (s : State) (addr : Nat) : Nat × Nat :=
  let page := ADDR_TO_PAGE g addr
  let i0 := (s.g_pages page).order.toNat
  (buddy_free_loop g (MAX_ORDER - i0) s page i0).2

/-- Byte offset `x` lies in the range `[b.1, b.1 + 2 ^ b.2)` of the block with
offset `b.1` and order `b.2`. -/
def in_range (x : Nat) (b : Nat × Nat) : Prop := b.1 ≤ x ∧ x < b.1 + 2 ^ b.2

/-- The blocks on the free lists of the table, each as the pair of its arena
offset (`addr - g_memory` of its page record) and the order of its list. -/
def free_blocks (g : Nat) (s : State) : List (Nat × Nat) :=
  (List.range' MIN_ORDER (MAX_ORDER + 1 - MIN_ORDER)).flatMap
    (fun o => (s.free_area o).map (fun p => ((s.g_pages p).addr - g, o)))

/-- The live allocations, each as the pair of its arena offset and the order in
the record of its page. -/
def live_blocks (g : Nat) (s : State) (live : List Nat) : List (Nat × Nat) :=
  live.map (fun a => (a - g, (s.g_pages (ADDR_TO_PAGE g a)).order.toNat))

/-- All blocks of a state: the free ones and the live allocations. -/
def all_blocks (g : Nat) (s : State) (live : List Nat) : List (Nat × Nat) :=
  free_blocks g s ++ live_blocks g s live

/-- Two states agree on the free lists of the table and on the address fields:
all that the loop of `buddy_free` reads. -/
def same_lists (s s' : State) : Prop :=
  (∀ o, MIN_ORDER ≤ o → o ≤ MAX_ORDER → s.free_area o = s'.free_area o) ∧
  (∀ j, (s.g_pages j).addr = (s'.g_pages j).addr)

/-- A concrete prior state: every record zero, every list empty. -/
def zero_state : State := { g_pages := fun _ => ⟨0, 0, 0⟩, free_area := fun _ => [] }

/-- A small state with free blocks of two orders: page 2 on the list of order
13, pages 4 and 8 on the list of order 14. -/
def two_lists_state : State :=
  { g_pages := fun j => ⟨j, if j = 2 then 13 else if j = 4 ∨ j = 8 then 14 else -1, j * 4096⟩,
    free_area := fun o => if o = 13 then [2] else if o = 14 then [4, 8] else [] }

/-- The state after `buddy_init` and three calls `buddy_alloc(4096)`; they
return the offsets 0, 4096 and 8192. -/
def three_pages_state : State :=
  (buddy_alloc 0 (buddy_alloc 0 (buddy_alloc 0 (buddy_init 0 zero_state) 4096).2 4096).2 4096).2

/-- The state after `buddy_free` of the first two of these three allocations:
pages 0 and 1 are merged into one free block of order 13, the allocation at
offset 8192 is live. -/
def merged_pair_state : State :=
  buddy_free 0 (buddy_free 0 three_pages_state 0) 4096

/-- Every record order is the sentinel `-1` or an order of the table to whose
block size the page is aligned. -/
def ord_ok (s : State) : Prop :=
  ∀ q, q < N_PAGES → (s.g_pages q).order = -1 ∨
    ∃ k : Nat, (s.g_pages q).order = (k : Int) ∧ MIN_ORDER ≤ k ∧ k ≤ MAX_ORDER ∧ 2 ^ k ∣ page_off q

/-- The function `split` once more, with the number of calls that went past the
test `order == requested`, that is the number of splits made. -/
def split_steps (g_memory : Nat) (s : State) (page : Nat) : Nat → Nat → State × Nat
  | 0, _ => (s, 0)
  | order + 1, requested =>
    if order + 1 = requested then (s, 0)
    else
      let buddy := ADDR_TO_PAGE g_memory (BUDDY_ADDR g_memory (s.g_pages page).addr order)
      let s1 := set_order s buddy order
      let s2 := list_add s1 buddy order
      let r := split_steps g_memory s2 page order requested
      (r.1, r.2 + 1)

/-- The calls `buddy_free(a)` for the addresses `a` of the list `l`, one after the other. -/
def free_all (g_memory : Nat) (s : State) (l : List Nat) : State :=
  l.foldl (buddy_free g_memory) s

/-- The text `printf("%d:%dK ", cnt, (1<<o)/1024)` writes. -/
def dump_entry (cnt o : Nat) : String :=
  toString cnt ++ ":" ++ toString ((1 <<< o) / 1024) ++ "K "

/-- The loop of `buddy_dump` at order `o` with `n` iterations left
(`n = MAX_ORDER + 1 - o`), `out` being the text written so far.  The inner
loop counts the elements of the free list of order `o`. -/
def buddy_dump_loop (s : State) : Nat → Nat → String → String × State
  | 0, _, out => (out, s)
  | n + 1, o, out =>
    let cnt := (s.free_area o).foldl (fun c _ => c + 1) 0
    buddy_dump_loop s n (o + 1) (out ++ dump_entry cnt o)

/-- The function `buddy_dump`: the text it writes and the state it leaves. -/
def buddy_dump (s : State) : String × State :=
  let r := buddy_dump_loop s (MAX_ORDER + 1 - MIN_ORDER) MIN_ORDER ""
  (r.1 ++ "\n", r.2)

/-- The report the specification describes: for each order from `MIN_ORDER` to
`MAX_ORDER`, in increasing order, the count of the free blocks of that order,
a colon, the block size in units of 1024 bytes and `K `; then a newline. -/
def dump_text (s : State) : String :=
  (List.range' MIN_ORDER (MAX_ORDER + 1 - MIN_ORDER)).foldl
    (fun out o => out ++ (toString (s.free_area o).length ++ ":" ++ toString (2 ^ o / 1024) ++ "K "))
    "" ++ "\n"

/-- The offset `a` rounded down to a multiple of `2 ^ k`. -/
def round_down (a k : Nat) : Nat := a / 2 ^ k * 2 ^ k

/-- The page of the block of order `k` around page `p`: its offset is that of
`p` rounded down to a multiple of `2 ^ k`. -/
def round_page (p k : Nat) : Nat := round_down (page_off p) k / PAGE_SIZE

/-- The page at which the buddy, at order `k`, of the block of order `k` around
the address `a` starts: `BUDDY_ADDR` of `a` rounded down to a multiple of
`2 ^ k` relative to the arena base. -/
def buddy_of (g_memory a k : Nat) : Nat :=
  ADDR_TO_PAGE g_memory (BUDDY_ADDR g_memory (g_memory + round_down (a - g_memory) k) k)

/-- What an operation does with an index: it reads or writes the record
`g_pages[i]`, it uses the list head `free_area[o]`, it calls
`split(page, order, requested)`, or it takes the first element of a free list,
here given as the list it is taken from, as a page. -/
inductive Access where
  | page (i : Nat)
  | area (o : Nat)
  | enter_split (order requested : Nat)
  | head (l : List Nat)

/-- The access is safe: a page index is below the number of records
`2 ^ (MAX_ORDER - MIN_ORDER)`, an order that indexes `free_area` is from
`MIN_ORDER` to `MAX_ORDER`, `split` is entered with `order ≥ requested`, and a
first element is taken from a list that is not empty. -/
def Access.ok : Access → Prop
  | Access.page i => i < 2 ^ (MAX_ORDER - MIN_ORDER)
  | Access.area o => MIN_ORDER ≤ o ∧ o ≤ MAX_ORDER
  | Access.enter_split order requested => requested ≤ order
  | Access.head l => l ≠ []

/-- The function `split` together with the accesses it makes, in order. -/
def split_traced (g_memory : Nat) (s : State) (page : Nat) : Nat → Nat → State × List Access
  | 0, requested => (s, [Access.enter_split 0 requested])
  | order + 1, requested =>
    if order + 1 = requested then (s, [Access.enter_split (order + 1) requested])
    else
      let buddy := ADDR_TO_PAGE g_memory (BUDDY_ADDR g_memory (s.g_pages page).addr order)
      let s1 := set_order s buddy order
      let s2 := list_add s1 buddy order
      let r := split_traced g_memory s2 page order requested
      (r.1, Access.enter_split (order + 1) requested :: Access.page buddy :: Access.area order :: r.2)

/-- The loop of `buddy_alloc` together with the accesses it makes. -/
def buddy_alloc_loop_traced (g_memory : Nat) (s : State) (req_order : Nat) :
    Nat → Nat → (Option Nat × State) × List Access
  | 0, _ => ((none, s), [])
  | n + 1, i =>
    match s.free_area i with
    | [] =>
      let r := buddy_alloc_loop_traced g_memory s req_order n (i + 1)
      (r.1, Access.area i :: r.2)
    | page :: _ =>
      let s1 := list_del_init s page
      let r := split_traced g_memory s1 page i req_order
      let s3 := set_order r.1 page req_order
      ((some (s3.g_pages page).addr, s3),
        Access.area i :: Access.head (s.free_area i) :: Access.page page :: r.2)

/-- The function `buddy_alloc` together with the accesses it makes. -/
def buddy_alloc_traced (g_memory : Nat) (s : State) (size : Int) :
    (Option Nat × State) × List Access :=
  let req_order := find_order size
  if req_order = -1 then ((none, s), [])
  else buddy_alloc_loop_traced g_memory s req_order.toNat (MAX_ORDER + 1 - req_order.toNat)
    req_order.toNat

/-- The loop of `buddy_free` together with the accesses it makes. -/
def buddy_free_loop_traced (g_memory : Nat) :
    Nat → State → Nat → Nat → (State × Nat × Nat) × List Access
  | 0, s, page, i => ((s, page, i), [])
  | n + 1, s, page, i =>
    let page_buddy := ADDR_TO_PAGE g_memory (BUDDY_ADDR g_memory (s.g_pages page).addr i)
    let freed := decide (page_buddy ∈ s.free_area i)
    if !freed then ((s, page, i), [Access.page page_buddy, Access.area i])
    else
      let s1 := list_del_init s page_buddy
      let page1 := if page_buddy < page then page_buddy else page
      let r := buddy_free_loop_traced g_memory n s1 page1 (i + 1)
      (r.1, Access.page page_buddy :: Access.area i :: r.2)

/-- The function `buddy_free` together with the accesses it makes. -/
def buddy_free_traced (g_memory : Nat) (s : State) (addr : Nat) : State × List Access :=
  let page := ADDR_TO_PAGE g_memory addr
  let i0 := (s.g_pages page).order.toNat
  let r := buddy_free_loop_traced g_memory (MAX_ORDER - i0) s page i0
  let s2 := set_order r.1.1 r.1.2.1 r.1.2.2
  (list_add s2 r.1.2.1 r.1.2.2, Access.page page :: (r.2 ++ [Access.area r.1.2.2]))

/-! ## Partitions of the arena -/

theorem page_off_inj {p q : Nat} (h : page_off p = page_off q) : p = q := by
  simp only [page_off, PAGE_SIZE, MIN_ORDER] at h
  omega

theorem pow_succ_two (o : Nat) : 2 ^ (o + 1) = 2 * 2 ^ o := by
  rw [pow_succ]; ring

theorem Part.congr {B C : Nat → Nat → Prop} (h : ∀ p o, C p o ↔ B p o) (hB : Part B) : Part C := by
  have : C = B := by funext p o; exact propext (h p o)
  rw [this]; exact hB

theorem dvd_half {a o : Nat} (h : 2 ^ (o + 1) ∣ a) : 2 ^ o ∣ a :=
  Dvd.dvd.trans (pow_dvd_pow 2 (Nat.le_succ o)) h

theorem Part.split {B C : Nat → Nat → Prop} {p q o : Nat} (hB : Part B)
    (hp : B p (o + 1)) (ho : MIN_ORDER ≤ o) (hq : page_off q = page_off p + 2 ^ o)
    (hC : ∀ r k, C r k ↔ (B r k ∧ ¬ (r = p ∧ k = o + 1)) ∨ (r = p ∧ k = o) ∨ (r = q ∧ k = o)) :
    Part C := by
  have hwf := hB.wf p (o + 1) hp
  obtain ⟨h1, h2, h3, h4⟩ := hwf
  have h2o := pow_succ_two o
  have hsub : ∀ r k x, (r = p ∧ k = o) ∨ (r = q ∧ k = o) → blk_in x r k → blk_in x p (o + 1) := by
    rintro r k x (⟨rfl, rfl⟩ | ⟨rfl, rfl⟩) hx <;> simp only [blk_in] at * <;> omega
  refine ⟨?_, ?_, ?_⟩
  · intro r k hr
    rcases (hC r k).1 hr with ⟨hb, _⟩ | ⟨rfl, rfl⟩ | ⟨rfl, rfl⟩
    · exact hB.wf r k hb
    · exact ⟨ho, by omega, dvd_half h3, by omega⟩
    · refine ⟨ho, by omega, ?_, by omega⟩
      rw [hq]; exact (Nat.dvd_add_right (dvd_half h3)).2 (dvd_refl _)
  · intro r k r' k' x hr hr' hx hx'
    rcases (hC r k).1 hr with ⟨hb, hne⟩ | hn <;> rcases (hC r' k').1 hr' with ⟨hb', hne'⟩ | hn'
    · exact hB.disj r k r' k' x hb hb' hx hx'
    · exact absurd (hB.disj r k p (o + 1) x hb hp hx (hsub r' k' x hn' hx')) hne
    · exact absurd (hB.disj r' k' p (o + 1) x hb' hp hx' (hsub r k x hn hx)) hne'
    · rcases hn with ⟨rfl, rfl⟩ | ⟨rfl, rfl⟩ <;> rcases hn' with ⟨rfl, rfl⟩ | ⟨rfl, rfl⟩
      · exact ⟨rfl, rfl⟩
      · simp only [blk_in] at hx hx'; omega
      · simp only [blk_in] at hx hx'; omega
      · exact ⟨rfl, rfl⟩
  · intro x hx
    obtain ⟨r, k, hb, hin⟩ := hB.cover x hx
    by_cases hrk : r = p ∧ k = o + 1
    · obtain ⟨rfl, rfl⟩ := hrk
      by_cases hlo : x < page_off r + 2 ^ o
      · exact ⟨r, o, (hC _ _).2 (Or.inr (Or.inl ⟨rfl, rfl⟩)), ⟨hin.1, hlo⟩⟩
      · refine ⟨q, o, (hC _ _).2 (Or.inr (Or.inr ⟨rfl, rfl⟩)), ?_⟩
        simp only [blk_in] at *; omega
    · exact ⟨r, k, (hC _ _).2 (Or.inl ⟨hb, hrk⟩), hin⟩

theorem Part.merge_halves {B C : Nat → Nat → Prop} {p q o : Nat} (hB : Part B)
    (hp : B p o) (hq : B q o) (ho : o < MAX_ORDER)
    (hpq : page_off q = page_off p + 2 ^ o) (hal : 2 ^ (o + 1) ∣ page_off p)
    (hC : ∀ r k, C r k ↔ (B r k ∧ ¬ (r = p ∧ k = o) ∧ ¬ (r = q ∧ k = o)) ∨ (r = p ∧ k = o + 1)) :
    Part C := by
  obtain ⟨h1, h2, h3, h4⟩ := hB.wf p o hp
  obtain ⟨g1, g2, g3, g4⟩ := hB.wf q o hq
  have h2o := pow_succ_two o
  have hsub : ∀ x, blk_in x p (o + 1) → blk_in x p o ∨ blk_in x q o := by
    intro x hx; simp only [blk_in] at *; omega
  refine ⟨?_, ?_, ?_⟩
  · intro r k hr
    rcases (hC r k).1 hr with ⟨hb, _⟩ | ⟨rfl, rfl⟩
    · exact hB.wf r k hb
    · exact ⟨by omega, by omega, hal, by omega⟩
  · intro r k r' k' x hr hr' hx hx'
    rcases (hC r k).1 hr with ⟨hb, hne, hne2⟩ | ⟨rfl, rfl⟩ <;>
      rcases (hC r' k').1 hr' with ⟨hb', hne', hne2'⟩ | ⟨rfl, rfl⟩
    · exact hB.disj r k r' k' x hb hb' hx hx'
    · rcases hsub x hx' with h | h
      · exact absurd (hB.disj r k _ o x hb hp hx h) hne
      · exact absurd (hB.disj r k q o x hb hq hx h) hne2
    · rcases hsub x hx with h | h
      · exact absurd (hB.disj r' k' _ o x hb' hp hx' h) hne'
      · exact absurd (hB.disj r' k' q o x hb' hq hx' h) hne2'
    · exact ⟨rfl, rfl⟩
  · intro x hx
    obtain ⟨r, k, hb, hin⟩ := hB.cover x hx
    by_cases hrk : r = p ∧ k = o
    · obtain ⟨rfl, rfl⟩ := hrk
      refine ⟨r, k + 1, (hC _ _).2 (Or.inr ⟨rfl, rfl⟩), ?_⟩
      simp only [blk_in] at *; omega
    · by_cases hrk2 : r = q ∧ k = o
      · obtain ⟨rfl, rfl⟩ := hrk2
        refine ⟨p, k + 1, (hC _ _).2 (Or.inr ⟨rfl, rfl⟩), ?_⟩
        simp only [blk_in] at *; omega
      · exact ⟨r, k, (hC _ _).2 (Or.inl ⟨hb, hrk, hrk2⟩), hin⟩

/-! ## Buddy arithmetic -/

theorem xor_pow_lower (a o : Nat) (h : 2 ^ (o + 1) ∣ a) : a ^^^ 2 ^ o = a + 2 ^ o := by
  obtain ⟨c, rfl⟩ := h
  have hlt : 2 ^ o < 2 ^ (o + 1) := by
    rw [pow_succ]; have := Nat.two_pow_pos o; omega
  rw [Nat.mul_add_lt_is_or hlt]
  apply Nat.eq_of_testBit_eq
  intro j
  rw [Nat.testBit_xor, Nat.testBit_or, Nat.testBit_two_pow]
  by_cases hj : o = j
  · subst hj
    simp [Nat.testBit_mul_pow_two]
  · simp [hj]

theorem xor_pow_upper (b o : Nat) (h : 2 ^ (o + 1) ∣ b) : (b + 2 ^ o) ^^^ 2 ^ o = b := by
  rw [← xor_pow_lower b o h, Nat.xor_cancel_right]

theorem odd_multiple (a o : Nat) (h : 2 ^ o ∣ a) (h2 : ¬ 2 ^ (o + 1) ∣ a) :
    ∃ b, 2 ^ (o + 1) ∣ b ∧ a = b + 2 ^ o := by
  obtain ⟨m, rfl⟩ := h
  rcases Nat.even_or_odd m with ⟨k, hk⟩ | ⟨k, hk⟩
  · exfalso; apply h2; subst hk; exact ⟨k, by rw [pow_succ]; ring⟩
  · subst hk; exact ⟨2 ^ (o + 1) * k, Dvd.intro _ rfl, by rw [pow_succ]; ring⟩

theorem buddy_page_eq (g p o : Nat) :
    ADDR_TO_PAGE g (BUDDY_ADDR g (PAGE_TO_ADDR g p) o) = buddy_page p o := by
  simp [ADDR_TO_PAGE, BUDDY_ADDR, PAGE_TO_ADDR, buddy_page, page_off, Nat.one_shiftLeft]

theorem page_size_dvd {a o : Nat} (ho : MIN_ORDER ≤ o) (h : 2 ^ o ∣ a) : PAGE_SIZE ∣ a := by
  have : PAGE_SIZE = 2 ^ MIN_ORDER := by simp [PAGE_SIZE, Nat.one_shiftLeft]
  rw [this]; exact Dvd.dvd.trans (pow_dvd_pow 2 ho) h

theorem not_dvd_add_half {b o : Nat} (h : 2 ^ (o + 1) ∣ b) : ¬ 2 ^ (o + 1) ∣ b + 2 ^ o := by
  intro h2
  have h3 : 2 ^ (o + 1) ∣ 2 ^ o := (Nat.dvd_add_right h).1 h2
  have h4 := Nat.le_of_dvd (Nat.two_pow_pos o) h3
  have := pow_succ_two o
  have := Nat.two_pow_pos o
  omega

theorem buddy_page_off {p o : Nat} (ho : MIN_ORDER ≤ o) (h : 2 ^ o ∣ page_off p) :
    page_off (buddy_page p o) = page_off p ^^^ 2 ^ o := by
  have hd : PAGE_SIZE ∣ page_off p ^^^ 2 ^ o := by
    by_cases h2 : 2 ^ (o + 1) ∣ page_off p
    · rw [xor_pow_lower _ _ h2]
      exact (Nat.dvd_add_right (page_size_dvd ho h)).2 (page_size_dvd ho (dvd_refl _))
    · obtain ⟨b, hb, hab⟩ := odd_multiple _ _ h h2
      rw [hab, xor_pow_upper _ _ hb]
      exact page_size_dvd ho (dvd_half hb)
  simp only [buddy_page]
  rw [page_off, Nat.div_mul_cancel hd]

theorem buddy_page_spec {p o : Nat} (ho : MIN_ORDER ≤ o) (h : 2 ^ o ∣ page_off p) :
    buddies p (buddy_page p o) o := by
  rw [buddies, buddy_page_off ho h]
  by_cases h2 : 2 ^ (o + 1) ∣ page_off p
  · left; exact ⟨xor_pow_lower _ _ h2, h2⟩
  · right
    obtain ⟨b, hb, hab⟩ := odd_multiple _ _ h h2
    rw [hab, xor_pow_upper _ _ hb]
    exact ⟨rfl, hb⟩

theorem buddies_symm {p q o : Nat} (h : buddies p q o) : buddies q p o := by
  rcases h with h | h
  · exact Or.inr h
  · exact Or.inl h

theorem buddies_unique {p q r o : Nat} (h : buddies p q o) (h2 : buddies p r o) : q = r := by
  have h0 := Nat.two_pow_pos o
  rcases h with ⟨e1, d1⟩ | ⟨e1, d1⟩ <;> rcases h2 with ⟨e2, d2⟩ | ⟨e2, d2⟩
  · exact page_off_inj (by omega)
  · rw [e2] at d1; exact absurd d1 (not_dvd_add_half d2)
  · rw [e1] at d2; exact absurd d2 (not_dvd_add_half d1)
  · exact page_off_inj (by omega)

theorem buddies_irrefl {p o : Nat} : ¬ buddies p p o := by
  have h0 := Nat.two_pow_pos o
  rintro (⟨e, _⟩ | ⟨e, _⟩) <;> omega

theorem buddies_eq_buddy_page {p q o : Nat} (ho : MIN_ORDER ≤ o) (h : 2 ^ o ∣ page_off p)
    (hb : buddies p q o) : q = buddy_page p o :=
  buddies_unique hb (buddy_page_spec ho h)

/-! ## Steps of the operations keep the invariant -/

theorem PAGE_TO_ADDR_inj {g p q : Nat} (h : PAGE_TO_ADDR g p = PAGE_TO_ADDR g q) : p = q := by
  simp only [PAGE_TO_ADDR, PAGE_SIZE, MIN_ORDER] at h
  omega

theorem ADDR_TO_PAGE_PAGE_TO_ADDR (g p : Nat) : ADDR_TO_PAGE g (PAGE_TO_ADDR g p) = p := by
  simp [ADDR_TO_PAGE, PAGE_TO_ADDR, PAGE_SIZE, MIN_ORDER]

theorem blk_in_self {p o : Nat} : blk_in (page_off p) p o :=
  ⟨le_refl _, by have := Nat.two_pow_pos o; omega⟩

theorem blk_wf_lt {p o : Nat} (h : blk_wf p o) : p < N_PAGES := by
  obtain ⟨_, _, _, h4⟩ := h
  have := Nat.two_pow_pos o
  simp only [page_off, PAGE_SIZE, MAX_ORDER, MIN_ORDER, N_PAGES, Nat.one_shiftLeft] at *
  norm_num at *
  omega

theorem Part.same_order {B : Nat → Nat → Prop} (hB : Part B) {p o k : Nat}
    (h1 : B p o) (h2 : B p k) : o = k :=
  (hB.disj p o p k (page_off p) h1 h2 blk_in_self blk_in_self).2

theorem is_free_del (s : State) (q r k : Nat)
    (hn : ∀ o, MIN_ORDER ≤ o → o ≤ MAX_ORDER → (s.free_area o).Nodup) :
    is_free (list_del_init s q) r k ↔ is_free s r k ∧ r ≠ q := by
  simp only [is_free, list_del_init]
  constructor
  · rintro ⟨h1, h2, h3⟩
    have := (List.Nodup.mem_erase_iff (hn k h1 h2)).1 h3
    exact ⟨⟨h1, h2, this.2⟩, this.1⟩
  · rintro ⟨⟨h1, h2, h3⟩, h4⟩
    exact ⟨h1, h2, (List.Nodup.mem_erase_iff (hn k h1 h2)).2 ⟨h4, h3⟩⟩

theorem is_free_add (s : State) (q o r k : Nat) (ho : MIN_ORDER ≤ o) (ho2 : o ≤ MAX_ORDER) (v : Int) :
    is_free (list_add (set_order s q v) q o) r k ↔ is_free s r k ∨ (r = q ∧ k = o) := by
  simp only [is_free, list_add, set_order]
  by_cases hk : k = o
  · subst hk
    rw [if_pos rfl, List.mem_cons]
    constructor
    · rintro ⟨h1, h2, h3 | h3⟩
      · exact Or.inr ⟨h3, rfl⟩
      · exact Or.inl ⟨h1, h2, h3⟩
    · rintro (⟨h1, h2, h3⟩ | ⟨h3, _⟩)
      · exact ⟨h1, h2, Or.inr h3⟩
      · exact ⟨ho, ho2, Or.inl h3⟩
  · simp only [if_neg hk]
    constructor
    · intro h; exact Or.inl h
    · rintro (h | ⟨_, h⟩)
      · exact h
      · exact absurd h hk

/-- Taking a free block out of its list: the operation now holds it. -/
theorem Inv.take {g : Nat} {s : State} {live : List Nat} {p i : Nat}
    (h : Inv g s live none) (hp : is_free s p i) :
    Inv g (list_del_init s p) live (some (p, i)) := by
  have hfd := fun r k => is_free_del s p r k h.nodup
  refine ⟨h.addr, h.live_nodup, h.live_page, ?_, ?_, ?_, ?_, ?_, ?_, ?_⟩
  · intro o h1 h2; exact (h.nodup o h1 h2).erase _
  · intro r k hr; exact h.ford r k ((hfd r k).1 hr).1
  · intro r k hr; exact h.excl_fl r k ((hfd r k).1 hr).1
  · intro r k k' hr he
    have := ((hfd r k).1 hr).2
    simp only [Option.some.injEq, Prod.mk.injEq] at he
    exact this he.1.symm
  · intro r k he
    simp only [Option.some.injEq, Prod.mk.injEq] at he
    obtain ⟨rfl, rfl⟩ := he
    exact h.excl_fl _ _ hp
  · refine Part.congr ?_ h.part
    intro r k
    simp only [is_block, hfd, Option.some.injEq, Prod.mk.injEq]
    constructor
    · rintro (⟨hf, _⟩ | hl | ⟨rfl, rfl⟩)
      · exact Or.inl hf
      · exact Or.inr (Or.inl hl)
      · exact Or.inl hp
    · rintro (hf | hl | hn)
      · by_cases hrp : r = p
        · subst hrp
          have := h.part.same_order (Or.inl hf : is_block g s live none r k) (Or.inl hp)
          exact Or.inr (Or.inr ⟨rfl, this.symm⟩)
        · exact Or.inl ⟨hf, hrp⟩
      · exact Or.inr (Or.inl hl)
      · exact absurd hn (by simp)
  · intro r q o hr hq; exact h.nobud r q o ((hfd r o).1 hr).1 ((hfd q o).1 hq).1

/-- Merging two buddies, whichever of them is the lower one. -/
theorem Part.merge_buddies {B C : Nat → Nat → Prop} {p q o : Nat} (hB : Part B)
    (hp : B p o) (hq : B q o) (ho : o < MAX_ORDER) (hb : buddies p q o)
    (hC : ∀ r k, C r k ↔ (B r k ∧ ¬ (r = p ∧ k = o) ∧ ¬ (r = q ∧ k = o)) ∨
      (r = (if q < p then q else p) ∧ k = o + 1)) :
    Part C := by
  have h0 := Nat.two_pow_pos o
  rcases hb with ⟨e, d⟩ | ⟨e, d⟩
  · have hlt : ¬ q < p := by
      intro hlt
      have : page_off q < page_off p := by
        simp only [page_off, PAGE_SIZE, MIN_ORDER, Nat.one_shiftLeft] at *; omega
      omega
    refine Part.merge_halves hB hp hq ho e d ?_
    intro r k; rw [hC r k, if_neg hlt]
  · have hlt : q < p := by
      by_contra hlt
      have : page_off p ≤ page_off q := by
        simp only [page_off, PAGE_SIZE, MIN_ORDER, Nat.one_shiftLeft] at *; omega
      omega
    refine Part.merge_halves hB hq hp ho e d ?_
    intro r k; rw [hC r k, if_pos hlt]
    constructor
    · rintro (⟨h1, h2, h3⟩ | h) 
      · exact Or.inl ⟨h1, h3, h2⟩
      · exact Or.inr h
    · rintro (⟨h1, h2, h3⟩ | h) 
      · exact Or.inl ⟨h1, h3, h2⟩
      · exact Or.inr h

/-- One step of the loop of `buddy_free`: the held block absorbs its free buddy. -/
theorem Inv.merge_step {g : Nat} {s : State} {live : List Nat} {p q i : Nat}
    (h : Inv g s live (some (p, i))) (hq : is_free s q i) (hb : buddies p q i)
    (hi : i < MAX_ORDER) :
    Inv g (list_del_init s q) live (some ((if q < p then q else p), i + 1)) := by
  have hfd := fun r k => is_free_del s q r k h.nodup
  have hpB : is_block g s live (some (p, i)) p i := Or.inr (Or.inr rfl)
  have hqB : is_block g s live (some (p, i)) q i := Or.inl hq
  have hpq : (if q < p then q else p) = p ∨ (if q < p then q else p) = q := by
    by_cases hlt : q < p
    · right; rw [if_pos hlt]
    · left; rw [if_neg hlt]
  refine ⟨h.addr, h.live_nodup, h.live_page, ?_, ?_, ?_, ?_, ?_, ?_, ?_⟩
  · intro o h1 h2; exact (h.nodup o h1 h2).erase _
  · intro r k hr; exact h.ford r k ((hfd r k).1 hr).1
  · intro r k hr; exact h.excl_fl r k ((hfd r k).1 hr).1
  · intro r k k' hr he
    obtain ⟨hf, hne⟩ := (hfd r k).1 hr
    simp only [Option.some.injEq, Prod.mk.injEq] at he
    rcases hpq with e | e
    · rw [e] at he; exact h.excl_fp r k i hf (by rw [he.1])
    · rw [e] at he; exact hne he.1.symm
  · intro r k he
    simp only [Option.some.injEq, Prod.mk.injEq] at he
    rcases hpq with e | e
    · rw [e] at he; rw [← he.1]; exact h.excl_lp p i rfl
    · rw [e] at he; rw [← he.1]; exact h.excl_fl q i hq
  · refine Part.merge_buddies h.part hpB hqB hi hb ?_
    intro r k
    simp only [is_block, hfd, Option.some.injEq, Prod.mk.injEq]
    constructor
    · rintro (⟨hf, hne⟩ | hl | he)
      · refine Or.inl ⟨Or.inl hf, ?_, ?_⟩
        · rintro ⟨rfl, rfl⟩; exact h.excl_fp r k k hf rfl
        · rintro ⟨rfl, _⟩; exact hne rfl
      · refine Or.inl ⟨Or.inr (Or.inl hl), ?_, ?_⟩
        · rintro ⟨rfl, rfl⟩; exact h.excl_lp r k rfl hl.1
        · rintro ⟨rfl, rfl⟩; exact h.excl_fl r k hq hl.1
      · exact Or.inr ⟨he.1.symm, he.2.symm⟩
    · rintro (⟨hf | hl | he, h2, h3⟩ | he)
      · refine Or.inl ⟨hf, ?_⟩
        rintro rfl
        have := h.part.same_order (Or.inl hf : is_block g s live (some (p, i)) r k) hqB
        exact h3 ⟨rfl, this⟩
      · exact Or.inr (Or.inl hl)
      · exact absurd ⟨he.1.symm, he.2.symm⟩ h2
      · exact Or.inr (Or.inr ⟨he.1.symm, he.2.symm⟩)
  · intro r q' o hr hq'; exact h.nobud r q' o ((hfd r o).1 hr).1 ((hfd q' o).1 hq').1

theorem set_order_addr (s : State) (q : Nat) (v : Int) (j : Nat) :
    ((set_order s q v).g_pages j).addr = (s.g_pages j).addr := by
  simp only [set_order]
  by_cases h : j = q
  · rw [if_pos h, h]
  · rw [if_neg h]

theorem set_order_order_ne (s : State) (q : Nat) (v : Int) (j : Nat) (h : j ≠ q) :
    ((set_order s q v).g_pages j).order = (s.g_pages j).order := by
  simp only [set_order, if_neg h]

theorem set_order_order_eq (s : State) (q : Nat) (v : Int) :
    ((set_order s q v).g_pages q).order = v := by
  simp only [set_order, if_true]

theorem list_add_pages (s : State) (q o : Nat) : (list_add s q o).g_pages = s.g_pages := rfl

theorem set_order_free_area (s : State) (q : Nat) (v : Int) :
    (set_order s q v).free_area = s.free_area := rfl

/-- A page inside the held block, other than its head, is neither free nor live. -/
theorem Inv.inner_not_block {g : Nat} {s : State} {live : List Nat} {p o q : Nat}
    (h : Inv g s live (some (p, o))) (hin : blk_in (page_off q) p o) (hne : q ≠ p) :
    (∀ k, ¬ is_free s q k) ∧ PAGE_TO_ADDR g q ∉ live := by
  have hpB : is_block g s live (some (p, o)) p o := Or.inr (Or.inr rfl)
  constructor
  · intro k hf
    exact hne (h.part.disj q k p o _ (Or.inl hf) hpB blk_in_self hin).1
  · intro hl
    obtain ⟨p', o', e, ho⟩ := h.live_page _ hl
    have := PAGE_TO_ADDR_inj e
    subst this
    exact hne (h.part.disj q o' p o _ (Or.inr (Or.inl ⟨hl, ho⟩)) hpB blk_in_self hin).1

/-- One call of `split` with `order ≠ requested`: the upper half of the held
block goes to the free list of the order below. -/
theorem Inv.split_step {g : Nat} {s : State} {live : List Nat} {p o : Nat}
    (h : Inv g s live (some (p, o + 1))) (ho : MIN_ORDER ≤ o) :
    Inv g (list_add (set_order s (buddy_page p o) o) (buddy_page p o) o) live (some (p, o)) := by
  have hpB : is_block g s live (some (p, o + 1)) p (o + 1) := Or.inr (Or.inr rfl)
  obtain ⟨w1, w2, w3, w4⟩ := h.part.wf _ _ hpB
  have h0 := Nat.two_pow_pos o
  have h2o := pow_succ_two o
  have hbud : buddies p (buddy_page p o) o := buddy_page_spec ho (dvd_half w3)
  have hoff : page_off (buddy_page p o) = page_off p + 2 ^ o := by
    rcases hbud with ⟨e, _⟩ | ⟨e, d⟩
    · exact e
    · rw [e] at w3; exact absurd w3 (not_dvd_add_half d)
  generalize buddy_page p o = q at *
  have hne : q ≠ p := by rintro rfl; omega
  have hin : blk_in (page_off q) p (o + 1) := by simp only [blk_in]; omega
  obtain ⟨hnf, hnl⟩ := h.inner_not_block hin hne
  have ho2 : o ≤ MAX_ORDER := by omega
  have hfa := fun r k => is_free_add s q o r k ho ho2 (o : Int)
  have hord : ∀ r, r ≠ q →
      ((list_add (set_order s q o) q o).g_pages r).order = (s.g_pages r).order := by
    intro r hr; rw [list_add_pages, set_order_order_ne _ _ _ _ hr]
  have hlive : ∀ r k, is_live g (list_add (set_order s q o) q o) live r k ↔ is_live g s live r k := by
    intro r k
    simp only [is_live]
    by_cases hr : r = q
    · subst hr; constructor <;> (intro hh; exact absurd hh.1 hnl)
    · rw [hord r hr]
  refine ⟨?_, h.live_nodup, ?_, ?_, ?_, ?_, ?_, ?_, ?_, ?_⟩
  · intro i hi; rw [list_add_pages, set_order_addr]; exact h.addr i hi
  · intro a ha
    obtain ⟨p', o', e, hor⟩ := h.live_page a ha
    refine ⟨p', o', e, ?_⟩
    have : p' ≠ q := by rintro rfl; rw [e] at ha; exact hnl ha
    rw [hord p' this]; exact hor
  · intro k h1 h2
    simp only [list_add, set_order]
    by_cases hk : k = o
    · rw [if_pos hk]
      refine List.nodup_cons.2 ⟨?_, h.nodup o ho ho2⟩
      intro hm; exact hnf o ⟨ho, ho2, hm⟩
    · rw [if_neg hk]; exact h.nodup k h1 h2
  · intro r k hr
    rcases (hfa r k).1 hr with hf | ⟨rfl, rfl⟩
    · have : r ≠ q := by rintro rfl; exact hnf k hf
      rw [hord r this]; exact h.ford r k hf
    · rw [list_add_pages, set_order_order_eq]
  · intro r k hr
    rcases (hfa r k).1 hr with hf | ⟨rfl, rfl⟩
    · exact h.excl_fl r k hf
    · exact hnl
  · intro r k k' hr he
    simp only [Option.some.injEq, Prod.mk.injEq] at he
    rcases (hfa r k).1 hr with hf | ⟨rfl, rfl⟩
    · exact h.excl_fp r k (o + 1) hf (by rw [he.1])
    · exact hne he.1.symm
  · intro r k he
    simp only [Option.some.injEq, Prod.mk.injEq] at he
    rw [← he.1]; exact h.excl_lp p (o + 1) rfl
  · refine Part.split h.part hpB ho hoff ?_
    intro r k
    simp only [is_block, hfa, hlive, Option.some.injEq, Prod.mk.injEq]
    constructor
    · rintro ((hf | he) | hl | he)
      · refine Or.inl ⟨Or.inl hf, ?_⟩
        rintro ⟨rfl, rfl⟩; exact h.excl_fp r _ _ hf rfl
      · exact Or.inr (Or.inr he)
      · refine Or.inl ⟨Or.inr (Or.inl hl), ?_⟩
        rintro ⟨rfl, rfl⟩; exact h.excl_lp r _ rfl hl.1
      · exact Or.inr (Or.inl ⟨he.1.symm, he.2.symm⟩)
    · rintro (⟨hf | hl | he, h2⟩ | he | he)
      · exact Or.inl (Or.inl hf)
      · exact Or.inr (Or.inl hl)
      · exact absurd ⟨he.1.symm, he.2.symm⟩ h2
      · exact Or.inr (Or.inr ⟨he.1.symm, he.2.symm⟩)
      · exact Or.inl (Or.inr he)
  · intro r r' k hr hr' hbb
    have hpfree : ¬ is_free s p o := by
      intro hf; exact h.excl_fp p o (o + 1) hf rfl
    rcases (hfa r k).1 hr with hf | ⟨rfl, rfl⟩ <;> rcases (hfa r' k).1 hr' with hf' | ⟨rfl, hk⟩
    · exact h.nobud r r' k hf hf' hbb
    · subst hk
      have := buddies_unique (buddies_symm hbb) (buddies_symm hbud)
      subst this; exact hpfree hf
    · have := buddies_unique hbb (buddies_symm hbud)
      subst this; exact hpfree hf'
    · exact buddies_irrefl hbb

/-- The end of `buddy_free`: the held block, which has no free buddy, is
recorded and put on the free list of its order. -/
theorem Inv.release {g : Nat} {s : State} {live : List Nat} {p i : Nat}
    (h : Inv g s live (some (p, i)))
    (hx : i = MAX_ORDER ∨ buddy_page p i ∉ s.free_area i) :
    Inv g (list_add (set_order s p i) p i) live none := by
  have hpB : is_block g s live (some (p, i)) p i := Or.inr (Or.inr rfl)
  obtain ⟨w1, w2, w3, w4⟩ := h.part.wf _ _ hpB
  have h0 := Nat.two_pow_pos i
  have hnl : PAGE_TO_ADDR g p ∉ live := h.excl_lp p i rfl
  have hnf : ∀ k, ¬ is_free s p k := fun k hf => h.excl_fp p k i hf rfl
  have hfa := fun r k => is_free_add s p i r k w1 w2 (i : Int)
  have hord : ∀ r, r ≠ p →
      ((list_add (set_order s p i) p i).g_pages r).order = (s.g_pages r).order := by
    intro r hr; rw [list_add_pages, set_order_order_ne _ _ _ _ hr]
  have hlive : ∀ r k, is_live g (list_add (set_order s p i) p i) live r k ↔ is_live g s live r k := by
    intro r k
    simp only [is_live]
    by_cases hr : r = p
    · subst hr; constructor <;> (intro hh; exact absurd hh.1 hnl)
    · rw [hord r hr]
  have hnb : ∀ r, is_free s r i → ¬ buddies p r i := by
    intro r hr hbb
    rcases hx with rfl | hx
    · obtain ⟨_, _, _, v4⟩ := h.part.wf r _ (Or.inl hr)
      rcases hbb with ⟨e, _⟩ | ⟨e, _⟩ <;> omega
    · rw [buddies_eq_buddy_page w1 w3 hbb] at hr
      exact hx hr.2.2
  refine ⟨?_, h.live_nodup, ?_, ?_, ?_, ?_, ?_, ?_, ?_, ?_⟩
  · intro j hj; rw [list_add_pages, set_order_addr]; exact h.addr j hj
  · intro a ha
    obtain ⟨p', o', e, hor⟩ := h.live_page a ha
    refine ⟨p', o', e, ?_⟩
    have : p' ≠ p := by rintro rfl; rw [e] at ha; exact hnl ha
    rw [hord p' this]; exact hor
  · intro k h1 h2
    simp only [list_add, set_order]
    by_cases hk : k = i
    · rw [if_pos hk]
      refine List.nodup_cons.2 ⟨?_, h.nodup i w1 w2⟩
      intro hm; exact hnf i ⟨w1, w2, hm⟩
    · rw [if_neg hk]; exact h.nodup k h1 h2
  · intro r k hr
    rcases (hfa r k).1 hr with hf | ⟨rfl, rfl⟩
    · have : r ≠ p := by rintro rfl; exact hnf k hf
      rw [hord r this]; exact h.ford r k hf
    · rw [list_add_pages, set_order_order_eq]
  · intro r k hr
    rcases (hfa r k).1 hr with hf | ⟨rfl, rfl⟩
    · exact h.excl_fl r k hf
    · exact hnl
  · intro r k k' _ he; exact absurd he (by simp)
  · intro r k he; exact absurd he (by simp)
  · refine Part.congr ?_ h.part
    intro r k
    simp only [is_block, hfa, hlive, Option.some.injEq, Prod.mk.injEq]
    constructor
    · rintro ((hf | he) | hl | he)
      · exact Or.inl hf
      · exact Or.inr (Or.inr ⟨he.1.symm, he.2.symm⟩)
      · exact Or.inr (Or.inl hl)
      · exact absurd he (by simp)
    · rintro (hf | hl | he)
      · exact Or.inl (Or.inl hf)
      · exact Or.inr (Or.inl hl)
      · exact Or.inl (Or.inr ⟨he.1.symm, he.2.symm⟩)
  · intro r r' k hr hr' hbb
    rcases (hfa r k).1 hr with hf | ⟨rfl, rfl⟩ <;> rcases (hfa r' k).1 hr' with hf' | ⟨rfl, hk⟩
    · exact h.nobud r r' k hf hf' hbb
    · subst hk; exact hnb r hf (buddies_symm hbb)
    · exact hnb r' hf' hbb
    · exact buddies_irrefl hbb

/-- The end of `buddy_alloc`: the held block is recorded and handed out. -/
theorem Inv.hand_out {g : Nat} {s : State} {live : List Nat} {p r : Nat}
    (h : Inv g s live (some (p, r))) :
    Inv g (set_order s p r) (PAGE_TO_ADDR g p :: live) none := by
  have hnl : PAGE_TO_ADDR g p ∉ live := h.excl_lp p r rfl
  have hnf : ∀ k, ¬ is_free s p k := fun k hf => h.excl_fp p k r hf rfl
  have hfr : ∀ q k, is_free (set_order s p r) q k ↔ is_free s q k := fun q k => Iff.rfl
  refine ⟨?_, List.nodup_cons.2 ⟨hnl, h.live_nodup⟩, ?_, h.nodup, ?_, ?_, ?_, ?_, ?_, h.nobud⟩
  · intro j hj; rw [set_order_addr]; exact h.addr j hj
  · intro a ha
    rcases List.mem_cons.1 ha with rfl | ha2
    · exact ⟨p, r, rfl, set_order_order_eq _ _ _⟩
    · obtain ⟨p', o', e, hor⟩ := h.live_page a ha2
      refine ⟨p', o', e, ?_⟩
      have : p' ≠ p := by rintro rfl; rw [e] at ha2; exact hnl ha2
      rw [set_order_order_ne _ _ _ _ this]; exact hor
  · intro q k hq
    have : q ≠ p := by rintro rfl; exact hnf k hq
    rw [set_order_order_ne _ _ _ _ this]; exact h.ford q k hq
  · intro q k hq hm
    rcases List.mem_cons.1 hm with e | hm
    · exact hnf k (PAGE_TO_ADDR_inj e ▸ hq)
    · exact h.excl_fl q k hq hm
  · intro q k k' _ he; exact absurd he (by simp)
  · intro q k he; exact absurd he (by simp)
  · refine Part.congr ?_ h.part
    intro q k
    simp only [is_block, hfr, is_live, List.mem_cons, Option.some.injEq, Prod.mk.injEq]
    constructor
    · rintro (hf | ⟨e | hl, ho⟩ | he)
      · exact Or.inl hf
      · have := PAGE_TO_ADDR_inj e
        subst this
        rw [set_order_order_eq] at ho
        exact Or.inr (Or.inr ⟨rfl, by exact_mod_cast ho⟩)
      · have : q ≠ p := by rintro rfl; exact hnl hl
        rw [set_order_order_ne _ _ _ _ this] at ho
        exact Or.inr (Or.inl ⟨hl, ho⟩)
      · exact absurd he (by simp)
    · rintro (hf | ⟨hl, ho⟩ | ⟨rfl, rfl⟩)
      · exact Or.inl hf
      · have : q ≠ p := by rintro rfl; exact hnl hl
        refine Or.inr (Or.inl ⟨Or.inr hl, ?_⟩)
        rw [set_order_order_ne _ _ _ _ this]; exact ho
      · exact Or.inr (Or.inl ⟨Or.inl rfl, set_order_order_eq _ _ _⟩)

/-- The start of `buddy_free`: the block at a live address becomes the held block. -/
theorem Inv.reclaim {g : Nat} {s : State} {live : List Nat} {a : Nat}
    (h : Inv g s live none) (ha : a ∈ live) :
    ∃ p o : Nat, a = PAGE_TO_ADDR g p ∧ (s.g_pages p).order = (o : Int) ∧
      Inv g s (live.erase a) (some (p, o)) := by
  obtain ⟨p, o, e, hor⟩ := h.live_page a ha
  refine ⟨p, o, e, hor, ?_⟩
  have hmem : ∀ x, x ∈ live.erase a ↔ x ≠ a ∧ x ∈ live :=
    fun x => List.Nodup.mem_erase_iff h.live_nodup
  subst e
  have hpl : is_live g s live p o := ⟨ha, hor⟩
  refine ⟨h.addr, h.live_nodup.erase _, ?_, h.nodup, h.ford, ?_, ?_, ?_, ?_, h.nobud⟩
  · intro x hx; exact h.live_page x ((hmem x).1 hx).2
  · intro q k hq hm; exact h.excl_fl q k hq ((hmem _).1 hm).2
  · intro q k k' hq he
    simp only [Option.some.injEq, Prod.mk.injEq] at he
    rw [← he.1] at hq; exact h.excl_fl p k hq ha
  · intro q k he hm
    simp only [Option.some.injEq, Prod.mk.injEq] at he
    rw [← he.1] at hm; exact ((hmem _).1 hm).1 rfl
  · refine Part.congr ?_ h.part
    intro q k
    simp only [is_block, is_live, hmem, Option.some.injEq, Prod.mk.injEq]
    constructor
    · rintro (hf | ⟨⟨_, hl⟩, ho⟩ | ⟨rfl, rfl⟩)
      · exact Or.inl hf
      · exact Or.inr (Or.inl ⟨hl, ho⟩)
      · exact Or.inr (Or.inl hpl)
    · rintro (hf | ⟨hl, ho⟩ | he)
      · exact Or.inl hf
      · by_cases hqp : q = p
        · subst hqp
          rw [hor] at ho
          exact Or.inr (Or.inr ⟨rfl, by exact_mod_cast ho⟩)
        · refine Or.inr (Or.inl ⟨⟨?_, hl⟩, ho⟩)
          intro e; exact hqp (PAGE_TO_ADDR_inj e)
      · exact absurd he (by simp)

/-! ## The loops keep the invariant -/

theorem Inv.pend_addr {g : Nat} {s : State} {live : List Nat} {p o : Nat}
    (h : Inv g s live (some (p, o))) : (s.g_pages p).addr = PAGE_TO_ADDR g p :=
  h.addr p (blk_wf_lt (h.part.wf p o (Or.inr (Or.inr rfl))))

theorem split_inv (g : Nat) (live : List Nat) (p requested : Nat) (hr : MIN_ORDER ≤ requested) :
    ∀ (order : Nat) (s : State), Inv g s live (some (p, order)) → requested ≤ order →
      Inv g (split g s p order requested) live (some (p, requested)) := by
  intro order
  induction order with
  | zero =>
    intro s _ hle
    simp only [MIN_ORDER] at hr; omega
  | succ o ih =>
    intro s h hle
    rw [split]
    by_cases he : o + 1 = requested
    · rw [if_pos he]; rw [← he]; exact h
    · rw [if_neg he]
      simp only []
      rw [h.pend_addr, buddy_page_eq]
      exact ih _ (h.split_step (by omega)) (by omega)

theorem buddy_free_loop_inv (g : Nat) (live : List Nat) :
    ∀ (n : Nat) (s : State) (p i : Nat), Inv g s live (some (p, i)) → i + n = MAX_ORDER →
      Inv g (buddy_free_loop g n s p i).1 live
        (some ((buddy_free_loop g n s p i).2.1, (buddy_free_loop g n s p i).2.2)) ∧
      ((buddy_free_loop g n s p i).2.2 = MAX_ORDER ∨
        buddy_page (buddy_free_loop g n s p i).2.1 (buddy_free_loop g n s p i).2.2 ∉
          (buddy_free_loop g n s p i).1.free_area (buddy_free_loop g n s p i).2.2) := by
  intro n
  induction n with
  | zero =>
    intro s p i h hn
    simp only [buddy_free_loop]
    exact ⟨h, Or.inl (by omega)⟩
  | succ n ih =>
    intro s p i h hn
    rw [buddy_free_loop]
    simp only []
    rw [h.pend_addr, buddy_page_eq]
    by_cases hm : buddy_page p i ∈ s.free_area i
    · rw [decide_eq_true hm]
      simp only [Bool.not_true, Bool.false_eq_true, if_false]
      obtain ⟨w1, w2, w3, w4⟩ := h.part.wf p i (Or.inr (Or.inr rfl))
      have hq : is_free s (buddy_page p i) i := ⟨w1, w2, hm⟩
      exact ih _ _ _ (h.merge_step hq (buddy_page_spec w1 w3) (by omega)) (by omega)
    · rw [decide_eq_false hm]
      simp only [Bool.not_false, if_true]
      exact ⟨h, Or.inr hm⟩

/-! ## Initialisation -/

theorem init_pages_free_area (g : Nat) (s : State) (n : Nat) :
    (init_pages g s n).free_area = s.free_area := by
  induction n with
  | zero => rfl
  | succ n ih => simp only [init_pages]; exact ih

theorem init_pages_pages (g : Nat) (s : State) (n j : Nat) (hj : j < n) :
    (init_pages g s n).g_pages j =
      { index := (j : Int), order := -1, addr := PAGE_TO_ADDR g j } := by
  induction n with
  | zero => omega
  | succ n ih =>
    simp only [init_pages]
    by_cases h : j = n
    · rw [if_pos h, h]
    · rw [if_neg h]; exact ih (by omega)

theorem init_lists_pages (s : State) (n i : Nat) : (init_lists s n i).g_pages = s.g_pages := by
  induction n generalizing s i with
  | zero => rfl
  | succ n ih => simp only [init_lists]; rw [ih]; rfl

theorem init_lists_free_area (s : State) (n i k : Nat) :
    (init_lists s n i).free_area k = if i ≤ k ∧ k < i + n then [] else s.free_area k := by
  induction n generalizing s i with
  | zero =>
    simp only [init_lists]
    rw [if_neg (by omega)]
  | succ n ih =>
    simp only [init_lists]
    rw [ih]
    by_cases h1 : i + 1 ≤ k ∧ k < i + 1 + n
    · rw [if_pos h1, if_pos (by omega)]
    · rw [if_neg h1]
      simp only [INIT_LIST_HEAD]
      by_cases h2 : k = i
      · rw [if_pos h2, if_pos (by omega)]
      · rw [if_neg h2, if_neg (by omega)]

theorem buddy_init_free_area (g : Nat) (s : State) (k : Nat) :
    (buddy_init g s).free_area k =
      if k = MAX_ORDER then [0] else if MIN_ORDER ≤ k ∧ k < MAX_ORDER then [] else s.free_area k := by
  simp only [buddy_init, list_add]
  rw [init_lists_free_area, init_lists_free_area, set_order_free_area, init_pages_free_area]
  simp only [MIN_ORDER, MAX_ORDER]
  by_cases h : k = 20
  · rw [if_pos h, if_pos h, if_pos (by omega)]
  · rw [if_neg h, if_neg h]
    by_cases h2 : 12 ≤ k ∧ k < 20
    · rw [if_pos h2, if_pos (by omega)]
    · rw [if_neg h2, if_neg (by omega)]

theorem buddy_init_pages (g : Nat) (s : State) (j : Nat) (hj : j < N_PAGES) :
    (buddy_init g s).g_pages j =
      { index := (j : Int), order := if j = 0 then (MAX_ORDER : Int) else -1,
        addr := PAGE_TO_ADDR g j } := by
  have h0 : 0 < N_PAGES := by simp [N_PAGES, MAX_ORDER, PAGE_SIZE, MIN_ORDER]
  simp only [buddy_init, list_add]
  rw [init_lists_pages]
  simp only [set_order]
  by_cases h : j = 0
  · rw [if_pos h, if_pos h, h]
    have := init_pages_pages g s N_PAGES 0 h0
    simp only [N_PAGES] at this
    rw [this]
  · rw [if_neg h, if_neg h]
    exact init_pages_pages g s _ j hj

theorem Inv.init (g : Nat) (s0 : State) : Inv g (buddy_init g s0) [] none := by
  have hfree : ∀ p o, is_free (buddy_init g s0) p o ↔ p = 0 ∧ o = MAX_ORDER := by
    intro p o
    simp only [is_free, buddy_init_free_area]
    by_cases h : o = MAX_ORDER
    · rw [if_pos h]; simp [h, MIN_ORDER, MAX_ORDER]
    · rw [if_neg h]
      by_cases h2 : MIN_ORDER ≤ o ∧ o < MAX_ORDER
      · rw [if_pos h2]; simp [h]
      · rw [if_neg h2]
        constructor
        · rintro ⟨h3, h4, _⟩; omega
        · rintro ⟨_, h3⟩; exact absurd h3 h
  have hblk : ∀ p o, is_block g (buddy_init g s0) [] none p o ↔ p = 0 ∧ o = MAX_ORDER := by
    intro p o
    simp only [is_block, hfree, is_live, List.not_mem_nil, false_and, false_or, or_false]
    simp
  have h0 : 0 < N_PAGES := by simp [N_PAGES, MAX_ORDER, PAGE_SIZE, MIN_ORDER]
  refine ⟨?_, List.nodup_nil, ?_, ?_, ?_, ?_, ?_, ?_, ?_, ?_⟩
  · intro i hi; rw [buddy_init_pages g s0 i hi]
  · intro a ha; exact absurd ha (List.not_mem_nil a)
  · intro o _ _
    rw [buddy_init_free_area]
    by_cases h : o = MAX_ORDER
    · rw [if_pos h]; exact List.nodup_singleton 0
    · rw [if_neg h]
      by_cases h2 : MIN_ORDER ≤ o ∧ o < MAX_ORDER
      · rw [if_pos h2]; exact List.nodup_nil
      · rw [if_neg h2]; omega
  · intro p o hf
    obtain ⟨rfl, rfl⟩ := (hfree p o).1 hf
    rw [buddy_init_pages g s0 0 h0]; simp
  · intro p o _ hm; exact absurd hm (List.not_mem_nil _)
  · intro p o k _ he; exact absurd he (by simp)
  · intro p k he; exact absurd he (by simp)
  · refine ⟨?_, ?_, ?_⟩
    · intro p o hb
      obtain ⟨rfl, rfl⟩ := (hblk p o).1 hb
      refine ⟨by simp [MIN_ORDER, MAX_ORDER], le_refl _, ?_, ?_⟩ <;> simp [page_off]
    · intro p o q k x hb hb' _ _
      obtain ⟨rfl, rfl⟩ := (hblk p o).1 hb
      obtain ⟨rfl, rfl⟩ := (hblk q k).1 hb'
      exact ⟨rfl, rfl⟩
    · intro x hx
      exact ⟨0, MAX_ORDER, (hblk _ _).2 ⟨rfl, rfl⟩, by simp [blk_in, page_off]; exact hx⟩
  · intro p q o hp hq hb
    obtain ⟨rfl, rfl⟩ := (hfree p o).1 hp
    obtain ⟨rfl, _⟩ := (hfree q _).1 hq
    exact buddies_irrefl hb

/-! ## The search of find_order and buddy_alloc -/

theorem find_order_loop_spec (size : Int) : ∀ (n i : Nat),
    (find_order_loop size n i = -1 ∧ ∀ j, i ≤ j → j < i + n → ((2 ^ j : Nat) : Int) < size) ∨
    (∃ k : Nat, find_order_loop size n i = (k : Int) ∧ i ≤ k ∧ k < i + n ∧
      size ≤ ((2 ^ k : Nat) : Int) ∧ ∀ j, i ≤ j → j < k → ((2 ^ j : Nat) : Int) < size) := by
  intro n
  induction n with
  | zero =>
    intro i
    left
    exact ⟨rfl, fun j h1 h2 => by omega⟩
  | succ n ih =>
    intro i
    rw [find_order_loop, Nat.one_shiftLeft]
    by_cases h : ((2 ^ i : Nat) : Int) ≥ size
    · rw [if_pos h]
      right
      exact ⟨i, rfl, le_refl _, by omega, h, fun j h1 h2 => by omega⟩
    · rw [if_neg h]
      have hlt : ((2 ^ i : Nat) : Int) < size := lt_of_not_ge h
      rcases ih (i + 1) with ⟨e, hall⟩ | ⟨k, e, h1, h2, h3, h4⟩
      · left
        refine ⟨e, fun j h1 h2 => ?_⟩
        by_cases hj : j = i
        · rw [hj]; exact hlt
        · exact hall j (by omega) (by omega)
      · right
        refine ⟨k, e, by omega, by omega, h3, fun j g1 g2 => ?_⟩
        by_cases hj : j = i
        · rw [hj]; exact hlt
        · exact h4 j (by omega) g2

theorem find_order_cases (size : Int) :
    (find_order size = -1 ∧ ((2 ^ MAX_ORDER : Nat) : Int) < size) ∨
    (∃ k : Nat, find_order size = (k : Int) ∧ MIN_ORDER ≤ k ∧ k ≤ MAX_ORDER ∧
      size ≤ ((2 ^ k : Nat) : Int) ∧ ∀ j, MIN_ORDER ≤ j → j < k → ((2 ^ j : Nat) : Int) < size) := by
  have hle : MIN_ORDER ≤ MAX_ORDER := by simp [MIN_ORDER, MAX_ORDER]
  rcases find_order_loop_spec size (MAX_ORDER + 1 - MIN_ORDER) MIN_ORDER with
    ⟨e, hall⟩ | ⟨k, e, h1, h2, h3, h4⟩
  · left; exact ⟨e, hall MAX_ORDER hle (by omega)⟩
  · right; exact ⟨k, e, h1, by omega, h3, h4⟩

theorem split_addr (g : Nat) (p requested : Nat) : ∀ (order : Nat) (s : State) (j : Nat),
    ((split g s p order requested).g_pages j).addr = (s.g_pages j).addr := by
  intro order
  induction order with
  | zero => intro s j; rfl
  | succ o ih =>
    intro s j
    rw [split]
    by_cases he : o + 1 = requested
    · rw [if_pos he]
    · rw [if_neg he]
      simp only []
      rw [ih, list_add_pages, set_order_addr]

theorem buddy_alloc_loop_spec (g : Nat) (s : State) (req : Nat) : ∀ (n i : Nat),
    (buddy_alloc_loop g s req n i = (none, s) ∧ ∀ j, i ≤ j → j < i + n → s.free_area j = []) ∨
    (∃ k page t, i ≤ k ∧ k < i + n ∧ s.free_area k = page :: t ∧
      (∀ j, i ≤ j → j < k → s.free_area j = []) ∧
      buddy_alloc_loop g s req n i = (some (s.g_pages page).addr, alloc_state g s page k req)) := by
  intro n
  induction n with
  | zero =>
    intro i
    left
    exact ⟨rfl, fun j h1 h2 => by omega⟩
  | succ n ih =>
    intro i
    rw [buddy_alloc_loop]
    cases hl : s.free_area i with
    | nil =>
      simp only []
      rcases ih (i + 1) with ⟨e, hall⟩ | ⟨k, page, t, h1, h2, h3, h4, e⟩
      · left
        refine ⟨e, fun j h1 h2 => ?_⟩
        by_cases hj : j = i
        · rw [hj]; exact hl
        · exact hall j (by omega) (by omega)
      · right
        refine ⟨k, page, t, by omega, by omega, h3, fun j g1 g2 => ?_, e⟩
        by_cases hj : j = i
        · rw [hj]; exact hl
        · exact h4 j (by omega) g2
    | cons page t =>
      right
      refine ⟨i, page, t, le_refl _, by omega, hl, fun j h1 h2 => by omega, ?_⟩
      simp only [alloc_state]
      rw [set_order_addr, split_addr]
      rfl

/-- The two outcomes of `buddy_alloc`. -/
theorem buddy_alloc_cases (g : Nat) (s : State) (size : Int) :
    (find_order size = -1 ∧ buddy_alloc g s size = (none, s)) ∨
    (∃ r : Nat, find_order size = (r : Int) ∧ MIN_ORDER ≤ r ∧ r ≤ MAX_ORDER ∧
      ((buddy_alloc g s size = (none, s) ∧ ∀ j, r ≤ j → j ≤ MAX_ORDER → s.free_area j = []) ∨
       (∃ k page t, r ≤ k ∧ k ≤ MAX_ORDER ∧ s.free_area k = page :: t ∧
          (∀ j, r ≤ j → j < k → s.free_area j = []) ∧
          buddy_alloc g s size = (some (s.g_pages page).addr, alloc_state g s page k r)))) := by
  rcases find_order_cases size with ⟨e, _⟩ | ⟨r, e, h1, h2, _, _⟩
  · left
    refine ⟨e, ?_⟩
    simp only [buddy_alloc]
    rw [if_pos e]
  · right
    refine ⟨r, e, h1, h2, ?_⟩
    have hne : ¬ ((r : Int) = -1) := by omega
    have hb : buddy_alloc g s size = buddy_alloc_loop g s r (MAX_ORDER + 1 - r) r := by
      simp only [buddy_alloc]
      rw [e, if_neg hne, Int.toNat_ofNat]
    rw [hb]
    rcases buddy_alloc_loop_spec g s r (MAX_ORDER + 1 - r) r with
      ⟨e2, hall⟩ | ⟨k, page, t, g1, g2, g3, g4, e2⟩
    · left; exact ⟨e2, fun j a1 a2 => hall j a1 (by omega)⟩
    · right; exact ⟨k, page, t, g1, by omega, g3, g4, e2⟩

/-! ## Reachable states satisfy the invariant -/

theorem Inv.free_addr {g : Nat} {s : State} {live : List Nat} {pend : Option (Nat × Nat)}
    {p o : Nat} (h : Inv g s live pend) (hf : is_free s p o) :
    (s.g_pages p).addr = PAGE_TO_ADDR g p :=
  h.addr p (blk_wf_lt (h.part.wf p o (Or.inl hf)))

theorem alloc_state_inv {g : Nat} {s : State} {live : List Nat} {page k r : Nat}
    (h : Inv g s live none) (hf : is_free s page k) (hr : MIN_ORDER ≤ r) (hrk : r ≤ k) :
    Inv g (alloc_state g s page k r) (PAGE_TO_ADDR g page :: live) none :=
  (split_inv g live page r hr k _ (h.take hf) hrk).hand_out

theorem buddy_alloc_inv {g : Nat} {s : State} {live : List Nat} (size : Int)
    (h : Inv g s live none) :
    Inv g (buddy_alloc g s size).2 ((buddy_alloc g s size).1.toList ++ live) none := by
  rcases buddy_alloc_cases g s size with ⟨_, e⟩ | ⟨r, _, h1, h2, ⟨e, _⟩ | ⟨k, page, t, g1, g2, g3, _, e⟩⟩
  · rw [e]; exact h
  · rw [e]; exact h
  · rw [e]
    have hf : is_free s page k := ⟨by omega, g2, by rw [g3]; exact List.mem_cons_self _ _⟩
    simp only [Option.toList, List.singleton_append]
    rw [h.free_addr hf]
    exact alloc_state_inv h hf h1 g1

theorem buddy_free_inv_aux {g : Nat} {s : State} {live : List Nat} {a : Nat}
    (h : Inv g s live none) (ha : a ∈ live) :
    Inv g (buddy_free g s a) (live.erase a) none ∧
    ((freed_block g s a).2 = MAX_ORDER ∨
      buddy_page (freed_block g s a).1 (freed_block g s a).2 ∉
        (buddy_free g s a).free_area (freed_block g s a).2) ∧
    is_free (buddy_free g s a) (freed_block g s a).1 (freed_block g s a).2 := by
  obtain ⟨p, o, e, hor, hinv⟩ := h.reclaim ha
  obtain ⟨w1, w2, w3, w4⟩ := hinv.part.wf p o (Or.inr (Or.inr rfl))
  obtain ⟨hl, hx⟩ := buddy_free_loop_inv g (live.erase a) (MAX_ORDER - o) s p o hinv (by omega)
  have hfb : freed_block g s a = (buddy_free_loop g (MAX_ORDER - o) s p o).2 := by
    simp only [freed_block]
    rw [e, ADDR_TO_PAGE_PAGE_TO_ADDR, hor, Int.toNat_ofNat]
  have hbf : buddy_free g s a =
      list_add (set_order (buddy_free_loop g (MAX_ORDER - o) s p o).1
        (buddy_free_loop g (MAX_ORDER - o) s p o).2.1 (buddy_free_loop g (MAX_ORDER - o) s p o).2.2)
        (buddy_free_loop g (MAX_ORDER - o) s p o).2.1 (buddy_free_loop g (MAX_ORDER - o) s p o).2.2 := by
    simp only [buddy_free]
    rw [e, ADDR_TO_PAGE_PAGE_TO_ADDR, hor, Int.toNat_ofNat]
  rw [hfb, hbf]
  generalize buddy_free_loop g (MAX_ORDER - o) s p o = R at *
  obtain ⟨v1, v2, v3, v4⟩ := hl.part.wf R.2.1 R.2.2 (Or.inr (Or.inr rfl))
  refine ⟨hl.release hx, ?_, ?_⟩
  · rcases hx with hx | hx
    · exact Or.inl hx
    · right
      simp only [list_add, set_order, if_true, List.mem_cons, not_or]
      refine ⟨?_, hx⟩
      intro hh
      exact buddies_irrefl (hh ▸ buddy_page_spec v1 v3)
  · exact (is_free_add _ _ _ _ _ v1 v2 _).2 (Or.inr ⟨rfl, rfl⟩)

theorem Reachable.inv {g : Nat} {s : State} {live : List Nat} (h : Reachable g s live) :
    Inv g s live none := by
  induction h with
  | init s0 => exact Inv.init g s0
  | alloc s live size _ ih => exact buddy_alloc_inv size ih
  | free s live a _ ha ih => exact (buddy_free_inv_aux ih ha).1

/-! ## Blocks as address ranges -/

theorem PAGE_TO_ADDR_sub (g p : Nat) : PAGE_TO_ADDR g p - g = page_off p := by
  simp [PAGE_TO_ADDR, page_off]

theorem Inv.block_disjoint {g : Nat} {s : State} {live : List Nat} (h : Inv g s live none)
    {p o q k : Nat} (hb : is_block g s live none p o) (hc : is_block g s live none q k)
    (hne : p ≠ q ∨ o ≠ k) (x : Nat) :
    ¬ (in_range x (page_off p, o) ∧ in_range x (page_off q, k)) := by
  rintro ⟨h1, h2⟩
  obtain ⟨e1, e2⟩ := h.part.disj p o q k x hb hc h1 h2
  rcases hne with hne | hne
  · exact hne e1
  · exact hne e2

theorem Inv.live_blocks_eq {g : Nat} {s : State} {live : List Nat} (h : Inv g s live none)
    {a : Nat} (ha : a ∈ live) :
    ∃ p o, is_live g s live p o ∧ a = PAGE_TO_ADDR g p ∧
      (a - g, (s.g_pages (ADDR_TO_PAGE g a)).order.toNat) = (page_off p, o) := by
  obtain ⟨p, o, e, hor⟩ := h.live_page a ha
  refine ⟨p, o, ⟨e ▸ ha, hor⟩, e, ?_⟩
  rw [e, ADDR_TO_PAGE_PAGE_TO_ADDR, hor, PAGE_TO_ADDR_sub, Int.toNat_ofNat]

theorem mem_range_orders (o : Nat) :
    o ∈ List.range' MIN_ORDER (MAX_ORDER + 1 - MIN_ORDER) ↔ MIN_ORDER ≤ o ∧ o ≤ MAX_ORDER := by
  rw [List.mem_range'_1]
  simp only [MIN_ORDER, MAX_ORDER]
  omega

theorem Inv.mem_free_blocks {g : Nat} {s : State} {live : List Nat} (h : Inv g s live none)
    (b : Nat × Nat) :
    b ∈ free_blocks g s ↔ ∃ p o, is_free s p o ∧ b = (page_off p, o) := by
  simp only [free_blocks, List.mem_flatMap, List.mem_map, mem_range_orders]
  constructor
  · rintro ⟨o, ⟨h1, h2⟩, p, hp, rfl⟩
    have hf : is_free s p o := ⟨h1, h2, hp⟩
    exact ⟨p, o, hf, by rw [h.free_addr hf, PAGE_TO_ADDR_sub]⟩
  · rintro ⟨p, o, hf, rfl⟩
    exact ⟨o, ⟨hf.1, hf.2.1⟩, p, hf.2.2, by rw [h.free_addr hf, PAGE_TO_ADDR_sub]⟩

theorem Inv.mem_live_blocks {g : Nat} {s : State} {live : List Nat} (h : Inv g s live none)
    (b : Nat × Nat) :
    b ∈ live_blocks g s live ↔ ∃ p o, is_live g s live p o ∧ b = (page_off p, o) := by
  simp only [live_blocks, List.mem_map]
  constructor
  · rintro ⟨a, ha, rfl⟩
    obtain ⟨p, o, hl, _, e⟩ := h.live_blocks_eq ha
    exact ⟨p, o, hl, e⟩
  · rintro ⟨p, o, hl, rfl⟩
    refine ⟨_, hl.1, ?_⟩
    rw [ADDR_TO_PAGE_PAGE_TO_ADDR, hl.2, Int.toNat_ofNat, PAGE_TO_ADDR_sub]

theorem Inv.mem_all_blocks {g : Nat} {s : State} {live : List Nat} (h : Inv g s live none)
    (b : Nat × Nat) :
    b ∈ all_blocks g s live ↔ ∃ p o, is_block g s live none p o ∧ b = (page_off p, o) := by
  simp only [all_blocks, List.mem_append, h.mem_free_blocks, h.mem_live_blocks, is_block]
  constructor
  · rintro (⟨p, o, hf, e⟩ | ⟨p, o, hl, e⟩)
    · exact ⟨p, o, Or.inl hf, e⟩
    · exact ⟨p, o, Or.inr (Or.inl hl), e⟩
  · rintro ⟨p, o, hf | hl | he, e⟩
    · exact Or.inl ⟨p, o, hf, e⟩
    · exact Or.inr ⟨p, o, hl, e⟩
    · exact absurd he (by simp)

theorem Inv.pairwise_blocks {g : Nat} {s : State} {live : List Nat} (h : Inv g s live none) :
    (all_blocks g s live).Pairwise (fun b c => ∀ x, ¬ (in_range x b ∧ in_range x c)) := by
  rw [all_blocks, List.pairwise_append]
  refine ⟨?_, ?_, ?_⟩
  · rw [free_blocks, List.pairwise_flatMap]
    constructor
    · intro o ho
      obtain ⟨h1, h2⟩ := (mem_range_orders o).1 ho
      rw [List.pairwise_map]
      refine List.Nodup.pairwise_of_forall_ne (h.nodup o h1 h2) ?_
      intro p hp q hq hne x
      have hfp : is_free s p o := ⟨h1, h2, hp⟩
      have hfq : is_free s q o := ⟨h1, h2, hq⟩
      rw [h.free_addr hfp, h.free_addr hfq, PAGE_TO_ADDR_sub, PAGE_TO_ADDR_sub]
      exact h.block_disjoint (Or.inl hfp) (Or.inl hfq) (Or.inl hne) x
    · refine List.Nodup.pairwise_of_forall_ne (List.nodup_range' _ _) ?_
      intro o ho k hk hne b hb c hc x
      obtain ⟨h1, h2⟩ := (mem_range_orders o).1 ho
      obtain ⟨g1, g2⟩ := (mem_range_orders k).1 hk
      obtain ⟨p, hp, rfl⟩ := List.mem_map.1 hb
      obtain ⟨q, hq, rfl⟩ := List.mem_map.1 hc
      have hfp : is_free s p o := ⟨h1, h2, hp⟩
      have hfq : is_free s q k := ⟨g1, g2, hq⟩
      rw [h.free_addr hfp, h.free_addr hfq, PAGE_TO_ADDR_sub, PAGE_TO_ADDR_sub]
      exact h.block_disjoint (Or.inl hfp) (Or.inl hfq) (Or.inr hne) x
  · rw [live_blocks, List.pairwise_map]
    refine List.Nodup.pairwise_of_forall_ne h.live_nodup ?_
    intro a ha b hb hne x
    obtain ⟨p, o, hl, e1, e2⟩ := h.live_blocks_eq ha
    obtain ⟨q, k, hl', e1', e2'⟩ := h.live_blocks_eq hb
    rw [e2, e2']
    refine h.block_disjoint (Or.inr (Or.inl hl)) (Or.inr (Or.inl hl')) (Or.inl ?_) x
    rintro rfl; exact hne (e1.trans e1'.symm)
  · intro b hb c hc x
    obtain ⟨p, o, hf, rfl⟩ := (h.mem_free_blocks b).1 hb
    obtain ⟨q, k, hl, rfl⟩ := (h.mem_live_blocks c).1 hc
    refine h.block_disjoint (Or.inl hf) (Or.inr (Or.inl hl)) (Or.inl ?_) x
    rintro rfl; exact h.excl_fl p o hf hl.1

theorem Inv.cover_blocks {g : Nat} {s : State} {live : List Nat} (h : Inv g s live none)
    (x : Nat) : x < 2 ^ MAX_ORDER ↔ ∃ b, b ∈ all_blocks g s live ∧ in_range x b := by
  constructor
  · intro hx
    obtain ⟨p, o, hb, hin⟩ := h.part.cover x hx
    exact ⟨(page_off p, o), (h.mem_all_blocks _).2 ⟨p, o, hb, rfl⟩, hin⟩
  · rintro ⟨b, hb, hin⟩
    obtain ⟨p, o, hblk, rfl⟩ := (h.mem_all_blocks b).1 hb
    obtain ⟨_, _, _, w4⟩ := h.part.wf p o hblk
    simp only [in_range] at hin
    omega

/-! ## Allocation followed by release -/

theorem same_lists_refl (s : State) : same_lists s s := ⟨fun _ _ _ => rfl, fun _ => rfl⟩

theorem same_lists_trans {s t u : State} (h1 : same_lists s t) (h2 : same_lists t u) :
    same_lists s u :=
  ⟨fun o a b => (h1.1 o a b).trans (h2.1 o a b), fun j => (h1.2 j).trans (h2.2 j)⟩

theorem same_lists_set_order (s : State) (q : Nat) (v : Int) : same_lists (set_order s q v) s :=
  ⟨fun _ _ _ => rfl, fun j => set_order_addr s q v j⟩

theorem same_lists_del {s s' : State} (h : same_lists s s') (q : Nat) :
    same_lists (list_del_init s q) (list_del_init s' q) := by
  refine ⟨fun o h1 h2 => ?_, h.2⟩
  simp only [list_del_init]
  rw [h.1 o h1 h2]

theorem buddy_free_loop_congr (g : Nat) : ∀ (n : Nat) (s s' : State) (p i : Nat),
    same_lists s s' → MIN_ORDER ≤ i → i + n ≤ MAX_ORDER →
      (buddy_free_loop g n s p i).2 = (buddy_free_loop g n s' p i).2 ∧
      same_lists (buddy_free_loop g n s p i).1 (buddy_free_loop g n s' p i).1 := by
  intro n
  induction n with
  | zero =>
    intro s s' p i h _ _
    exact ⟨rfl, h⟩
  | succ n ih =>
    intro s s' p i h h1 h2
    rw [buddy_free_loop, buddy_free_loop]
    simp only []
    rw [h.2 p, h.1 i h1 (by omega)]
    by_cases hm : ADDR_TO_PAGE g (BUDDY_ADDR g (s'.g_pages p).addr i) ∈ s'.free_area i
    · rw [decide_eq_true hm]
      simp only [Bool.not_true, Bool.false_eq_true, if_false]
      exact ih _ _ _ _ (same_lists_del h _) (by omega) (by omega)
    · rw [decide_eq_false hm]
      simp only [Bool.not_false, if_true]
      exact ⟨trivial, h⟩

/-- The loop of `buddy_free`, started on the outcome of `split`, undoes the
splits and then goes on as it would from the block before the splits. -/
theorem buddy_free_loop_split (g : Nat) (live : List Nat) (p r : Nat) (hr : MIN_ORDER ≤ r) :
    ∀ (o : Nat) (s : State), Inv g s live (some (p, o)) → r ≤ o →
      (buddy_free_loop g (MAX_ORDER - r) (split g s p o r) p r).2 =
        (buddy_free_loop g (MAX_ORDER - o) s p o).2 ∧
      same_lists (buddy_free_loop g (MAX_ORDER - r) (split g s p o r) p r).1
        (buddy_free_loop g (MAX_ORDER - o) s p o).1 := by
  intro o
  induction o with
  | zero =>
    intro s _ hle
    simp only [MIN_ORDER] at hr; omega
  | succ o ih =>
    intro s h hle
    rw [split]
    by_cases he : o + 1 = r
    · rw [if_pos he, he]
      exact ⟨rfl, same_lists_refl _⟩
    · rw [if_neg he]
      simp only []
      rw [h.pend_addr, buddy_page_eq]
      have hpB : is_block g s live (some (p, o + 1)) p (o + 1) := Or.inr (Or.inr rfl)
      obtain ⟨w1, w2, w3, w4⟩ := h.part.wf _ _ hpB
      have ho : MIN_ORDER ≤ o := by omega
      have h2 := h.split_step ho
      obtain ⟨e1, e2⟩ := ih _ h2 (by omega)
      have h0 := Nat.two_pow_pos o
      have h2o := pow_succ_two o
      have hbud : buddies p (buddy_page p o) o := buddy_page_spec ho (dvd_half w3)
      have hoff : page_off (buddy_page p o) = page_off p + 2 ^ o := by
        rcases hbud with ⟨e, _⟩ | ⟨e, d⟩
        · exact e
        · rw [e] at w3; exact absurd w3 (not_dvd_add_half d)
      have hlt : ¬ buddy_page p o < p := by
        intro hlt
        have : page_off (buddy_page p o) < page_off p := by
          simp only [page_off, PAGE_SIZE, MIN_ORDER, Nat.one_shiftLeft] at *; omega
        omega
      have hne : buddy_page p o ≠ p := by intro e; rw [e] at hoff; omega
      have hin : blk_in (page_off (buddy_page p o)) p (o + 1) := by simp only [blk_in]; omega
      obtain ⟨hnf, _⟩ := h.inner_not_block hin hne
      generalize buddy_page p o = q at *
      -- one iteration of the loop at order `o` in the state after the split
      have hstep : buddy_free_loop g (MAX_ORDER - o) (list_add (set_order s q o) q o) p o =
          buddy_free_loop g (MAX_ORDER - (o + 1))
            (list_del_init (list_add (set_order s q o) q o) q) p (o + 1) := by
        have hn : MAX_ORDER - o = (MAX_ORDER - (o + 1)) + 1 := by omega
        rw [hn, buddy_free_loop]
        simp only []
        rw [h2.pend_addr, buddy_page_eq]
        have hbq : buddy_page p o = q := (buddies_eq_buddy_page ho (dvd_half w3) hbud).symm
        rw [hbq]
        have hm : q ∈ (list_add (set_order s q o) q o).free_area o := by
          simp only [list_add, if_true]; exact List.mem_cons_self _ _
        rw [decide_eq_true hm]
        simp only [Bool.not_true, Bool.false_eq_true, if_false]
        rw [if_neg hlt]
      have hsame : same_lists (list_del_init (list_add (set_order s q o) q o) q) s := by
        refine ⟨fun k k1 k2 => ?_, fun j => set_order_addr s q o j⟩
        simp only [list_del_init, list_add, set_order]
        by_cases hk : k = o
        · rw [if_pos hk, List.erase_cons_head, hk]
        · rw [if_neg hk]
          exact List.erase_of_not_mem (fun hm => hnf k ⟨k1, k2, hm⟩)
      obtain ⟨c1, c2⟩ := buddy_free_loop_congr g (MAX_ORDER - (o + 1)) _ _ p (o + 1) hsame
        (by omega) (by omega)
      rw [hstep] at e1 e2
      exact ⟨e1.trans c1, same_lists_trans e2 c2⟩

/-- The loop of `buddy_free` stops at once on a block just taken from a free
list: its buddy is not free. -/
theorem buddy_free_loop_taken {g : Nat} {s : State} {live : List Nat} {page k : Nat}
    (h : Inv g s live none) (hf : is_free s page k) :
    buddy_free_loop g (MAX_ORDER - k) (list_del_init s page) page k =
      (list_del_init s page, page, k) := by
  by_cases hk : k = MAX_ORDER
  · rw [hk, Nat.sub_self]; rfl
  · have hlt : k < MAX_ORDER := lt_of_le_of_ne hf.2.1 hk
    have hn : MAX_ORDER - k = (MAX_ORDER - (k + 1)) + 1 := by omega
    have h1 := h.take hf
    obtain ⟨_, _, w3, _⟩ := h.part.wf page k (Or.inl hf)
    rw [hn, buddy_free_loop]
    simp only []
    rw [h1.pend_addr, buddy_page_eq]
    have hm : buddy_page page k ∉ (list_del_init s page).free_area k := by
      intro hm
      have := ((is_free_del s page _ k h.nodup).1 ⟨hf.1, hf.2.1, hm⟩).1
      exact h.nobud page _ k hf this (buddy_page_spec hf.1 w3)
    rw [decide_eq_false hm]
    simp only [Bool.not_false, if_true]

/-- Releasing the block `buddy_alloc` has just handed out puts every free list
of the table back. -/
theorem free_alloc_state {g : Nat} {s : State} {live : List Nat} {page k r : Nat} {t : List Nat}
    (h : Inv g s live none) (hl : s.free_area k = page :: t) (hk : k ≤ MAX_ORDER)
    (hr : MIN_ORDER ≤ r) (hrk : r ≤ k) :
    ∀ o, MIN_ORDER ≤ o → o ≤ MAX_ORDER →
      (buddy_free g (alloc_state g s page k r) (PAGE_TO_ADDR g page)).free_area o =
        s.free_area o := by
  have hf : is_free s page k := ⟨by omega, hk, by rw [hl]; exact List.mem_cons_self _ _⟩
  have h1 := h.take hf
  obtain ⟨e1, e2⟩ := buddy_free_loop_congr g (MAX_ORDER - r)
    (alloc_state g s page k r) (split g (list_del_init s page) page k r) page r
    (same_lists_set_order _ _ _) hr (by omega)
  obtain ⟨d1, d2⟩ := buddy_free_loop_split g live page r hr k _ h1 hrk
  rw [buddy_free_loop_taken h hf] at d1 d2
  have hord : ((alloc_state g s page k r).g_pages page).order = (r : Int) :=
    set_order_order_eq _ _ _
  have hbf : buddy_free g (alloc_state g s page k r) (PAGE_TO_ADDR g page) =
      list_add (set_order (buddy_free_loop g (MAX_ORDER - r) (alloc_state g s page k r) page r).1
        (buddy_free_loop g (MAX_ORDER - r) (alloc_state g s page k r) page r).2.1
        (buddy_free_loop g (MAX_ORDER - r) (alloc_state g s page k r) page r).2.2)
        (buddy_free_loop g (MAX_ORDER - r) (alloc_state g s page k r) page r).2.1
        (buddy_free_loop g (MAX_ORDER - r) (alloc_state g s page k r) page r).2.2 := by
    simp only [buddy_free]
    rw [ADDR_TO_PAGE_PAGE_TO_ADDR, hord, Int.toNat_ofNat]
  rw [hbf]
  have f1 := e1.trans d1
  have f2 := same_lists_trans e2 d2
  generalize buddy_free_loop g (MAX_ORDER - r) (alloc_state g s page k r) page r = R at *
  have g1 : R.2.1 = page := by rw [f1]
  have g2 : R.2.2 = k := by rw [f1]
  intro o o1 o2
  rw [g1, g2]
  simp only [list_add, set_order]
  by_cases hok : o = k
  · rw [if_pos hok, f2.1 k (by omega) hk]
    simp only [list_del_init]
    rw [hl, List.erase_cons_head, hok, hl]
  · rw [if_neg hok, f2.1 o o1 o2]
    simp only [list_del_init]
    refine List.erase_of_not_mem (fun hm => hok ?_)
    exact h.part.same_order (Or.inl ⟨o1, o2, hm⟩ : is_block g s live none page o) (Or.inl hf)

/-! ## The properties of the specification -/

/-- C1, partition invariant: in every state reachable from `buddy_init` by a
valid call sequence, the byte ranges `[offset, offset + 2 ^ order)` of the
blocks on the free lists and of the live allocations are pairwise disjoint, and
a byte offset lies in one of them exactly when it is below `2 ^ MAX_ORDER`. -/
theorem partition_invariant (g : Nat) (s : State) (live : List Nat) (h : Reachable g s live) :
    (all_blocks g s live).Pairwise (fun b c => ∀ x, ¬ (in_range x b ∧ in_range x c)) ∧
    (∀ x, x < 2 ^ MAX_ORDER ↔ ∃ b, b ∈ all_blocks g s live ∧ in_range x b) :=
  ⟨h.inv.pairwise_blocks, h.inv.cover_blocks⟩

theorem partition_invariant_witness :
    Reachable 0 (buddy_alloc 0 (buddy_init 0 zero_state) 4096).2
      ((buddy_alloc 0 (buddy_init 0 zero_state) 4096).1.toList ++ []) ∧
    ((all_blocks 0 (buddy_alloc 0 (buddy_init 0 zero_state) 4096).2
        ((buddy_alloc 0 (buddy_init 0 zero_state) 4096).1.toList ++ [])).Pairwise
        (fun b c => ∀ x, ¬ (in_range x b ∧ in_range x c)) ∧
      (∀ x, x < 2 ^ MAX_ORDER ↔
        ∃ b, b ∈ all_blocks 0 (buddy_alloc 0 (buddy_init 0 zero_state) 4096).2
          ((buddy_alloc 0 (buddy_init 0 zero_state) 4096).1.toList ++ []) ∧ in_range x b)) :=
  ⟨Reachable.alloc _ _ _ (Reachable.init _),
    partition_invariant _ _ _ (Reachable.alloc _ _ _ (Reachable.init _))⟩

set_option maxRecDepth 100000 in
/-- The state `merged_pair_state` is reachable and its one live address is 8192. -/
theorem merged_pair_reachable : Reachable 0 merged_pair_state [8192] := by
  have h3 : Reachable 0 three_pages_state
      ((buddy_alloc 0 (buddy_alloc 0 (buddy_alloc 0 (buddy_init 0 zero_state) 4096).2 4096).2
          4096).1.toList ++
        ((buddy_alloc 0 (buddy_alloc 0 (buddy_init 0 zero_state) 4096).2 4096).1.toList ++
          ((buddy_alloc 0 (buddy_init 0 zero_state) 4096).1.toList ++ []))) :=
    Reachable.alloc _ _ 4096 (Reachable.alloc _ _ 4096
      (Reachable.alloc _ _ 4096 (Reachable.init zero_state)))
  have h4 := Reachable.free _ _ 0 h3 (by decide)
  have h5 := Reachable.free _ _ 4096 h4 (by decide)
  have e : ((((buddy_alloc 0 (buddy_alloc 0 (buddy_alloc 0 (buddy_init 0 zero_state) 4096).2
        4096).2 4096).1.toList ++
      ((buddy_alloc 0 (buddy_alloc 0 (buddy_init 0 zero_state) 4096).2 4096).1.toList ++
        ((buddy_alloc 0 (buddy_init 0 zero_state) 4096).1.toList ++ []))).erase 0).erase 4096) =
      [8192] := by decide
  rw [e] at h5
  exact h5

/-- C2, alignment invariant: in every reachable state the arena offset of every
block, free or live, is a multiple of `2 ^ order`; and an address returned by
`buddy_alloc(size)` is, relative to the arena base, a multiple of
`2 ^ find_order(size)`. -/
theorem alignment_invariant (g : Nat) (s : State) (live : List Nat) (h : Reachable g s live) :
    (∀ b, b ∈ all_blocks g s live → 2 ^ b.2 ∣ b.1) ∧
    (∀ size a, (buddy_alloc g s size).1 = some a →
      g ≤ a ∧ 2 ^ (find_order size).toNat ∣ a - g) := by
  constructor
  · intro b hb
    obtain ⟨p, o, hblk, rfl⟩ := (h.inv.mem_all_blocks b).1 hb
    exact (h.inv.part.wf p o hblk).2.2.1
  · intro size a ha
    rcases buddy_alloc_cases g s size with
      ⟨_, e⟩ | ⟨r, er, h1, h2, ⟨e, _⟩ | ⟨k, page, t, g1, g2, g3, _, e⟩⟩
    · rw [e] at ha; exact absurd ha (by simp)
    · rw [e] at ha; exact absurd ha (by simp)
    · rw [e] at ha
      simp only [Option.some.injEq] at ha
      have hf : is_free s page k := ⟨by omega, g2, by rw [g3]; exact List.mem_cons_self _ _⟩
      have hinv := split_inv g live page r h1 k _ (h.inv.take hf) g1
      obtain ⟨_, _, w3, _⟩ := hinv.part.wf page r (Or.inr (Or.inr rfl))
      rw [← ha, h.inv.free_addr hf, er, Int.toNat_ofNat, PAGE_TO_ADDR_sub]
      exact ⟨by simp [PAGE_TO_ADDR], w3⟩

set_option maxRecDepth 100000 in
theorem alignment_invariant_witness :
    Reachable 0 merged_pair_state [8192] ∧
    (buddy_alloc 0 merged_pair_state 4096).1 = some 12288 ∧
    ((∀ b, b ∈ all_blocks 0 merged_pair_state [8192] → 2 ^ b.2 ∣ b.1) ∧
      (∀ size a, (buddy_alloc 0 merged_pair_state size).1 = some a →
        0 ≤ a ∧ 2 ^ (find_order size).toNat ∣ a - 0)) :=
  ⟨merged_pair_reachable, by decide, alignment_invariant 0 merged_pair_state [8192]
    merged_pair_reachable⟩

/-- C3, smallest-fit policy: when `buddy_alloc(size)` succeeds, in any state, the
address it returns is that of the first element of the free list of order `i`,
where `i` is the least order from `find_order(size)` up to `MAX_ORDER` whose
free list is not empty at the call. -/
theorem smallest_fit (g : Nat) (s : State) (size : Int) (a : Nat)
    (h : (buddy_alloc g s size).1 = some a) :
    ∃ (i page : Nat) (t : List Nat), find_order size ≤ (i : Int) ∧ i ≤ MAX_ORDER ∧ s.free_area i = page :: t ∧
      a = (s.g_pages page).addr ∧
      ∀ j : Nat, find_order size ≤ (j : Int) → j < i → s.free_area j = [] := by
  rcases buddy_alloc_cases g s size with
    ⟨_, e⟩ | ⟨r, er, h1, h2, ⟨e, _⟩ | ⟨k, page, t, g1, g2, g3, g4, e⟩⟩
  · rw [e] at h; exact absurd h (by simp)
  · rw [e] at h; exact absurd h (by simp)
  · rw [e] at h
    simp only [Option.some.injEq] at h
    refine ⟨k, page, t, by rw [er]; exact_mod_cast g1, g2, g3, h.symm, ?_⟩
    intro j hj hjk
    rw [er] at hj
    exact g4 j (by exact_mod_cast hj) hjk

theorem smallest_fit_witness :
    (buddy_alloc 0 two_lists_state 4096).1 = some 8192 ∧
    ∃ (i page : Nat) (t : List Nat), find_order 4096 ≤ (i : Int) ∧ i ≤ MAX_ORDER ∧
      two_lists_state.free_area i = page :: t ∧
      8192 = (two_lists_state.g_pages page).addr ∧
      ∀ j : Nat, find_order 4096 ≤ (j : Int) → j < i → two_lists_state.free_area j = [] :=
  ⟨by decide, smallest_fit 0 two_lists_state 4096 8192 (by decide)⟩

/-- C4: `find_order(size)` is `-1` exactly when `size` exceeds `2 ^ MAX_ORDER`,
and otherwise it is the smallest order `o` from `MIN_ORDER` to `MAX_ORDER` with
`2 ^ o ≥ size`. -/
theorem find_order_smallest (size : Int) :
    (find_order size = -1 ↔ ((2 ^ MAX_ORDER : Nat) : Int) < size) ∧
    (find_order size = -1 ∨
      ∃ o : Nat, find_order size = (o : Int) ∧ MIN_ORDER ≤ o ∧ o ≤ MAX_ORDER ∧
        size ≤ ((2 ^ o : Nat) : Int) ∧
        ∀ j : Nat, MIN_ORDER ≤ j → size ≤ ((2 ^ j : Nat) : Int) → o ≤ j) := by
  rcases find_order_cases size with ⟨e, hlt⟩ | ⟨k, e, h1, h2, h3, h4⟩
  · exact ⟨⟨fun _ => hlt, fun _ => e⟩, Or.inl e⟩
  · refine ⟨⟨fun h => ?_, fun h => ?_⟩, Or.inr ⟨k, e, h1, h2, h3, fun j hj hs => ?_⟩⟩
    · rw [e] at h; omega
    · exfalso
      have hmono : ((2 ^ k : Nat) : Int) ≤ ((2 ^ MAX_ORDER : Nat) : Int) := by
        exact_mod_cast Nat.pow_le_pow_right (by norm_num) h2
      omega
    · by_contra hlt
      have := h4 j hj (by omega)
      omega

/-- C5: `buddy_alloc(size)` returns `NULL` exactly when `size` exceeds
`2 ^ MAX_ORDER` or every free list of the orders `find_order(size)` to
`MAX_ORDER` is empty; in every other case it returns the address of a page that
is on a free list. -/
theorem buddy_alloc_null_iff (g : Nat) (s : State) (size : Int) :
    ((buddy_alloc g s size).1 = none ↔
      (((2 ^ MAX_ORDER : Nat) : Int) < size ∨
        ∀ i : Nat, find_order size ≤ (i : Int) → i ≤ MAX_ORDER → s.free_area i = [])) ∧
    ((buddy_alloc g s size).1 = none ∨
      ∃ (i page : Nat), find_order size ≤ (i : Int) ∧ i ≤ MAX_ORDER ∧ page ∈ s.free_area i ∧
        (buddy_alloc g s size).1 = some (s.g_pages page).addr) := by
  have hfo := (find_order_cases size)
  rcases buddy_alloc_cases g s size with
    ⟨e0, e⟩ | ⟨r, er, h1, h2, ⟨e, hall⟩ | ⟨k, page, t, g1, g2, g3, g4, e⟩⟩
  · rw [e]
    refine ⟨⟨fun _ => Or.inl ?_, fun _ => rfl⟩, Or.inl rfl⟩
    rcases hfo with ⟨_, hlt⟩ | ⟨k, ek, _⟩
    · exact hlt
    · rw [e0] at ek; omega
  · rw [e]
    refine ⟨⟨fun _ => Or.inr ?_, fun _ => rfl⟩, Or.inl rfl⟩
    intro i hi hi2
    rw [er] at hi
    exact hall i (by exact_mod_cast hi) hi2
  · rw [e]
    have hmem : page ∈ s.free_area k := by rw [g3]; exact List.mem_cons_self _ _
    refine ⟨⟨fun hn => absurd hn (by simp), ?_⟩, Or.inr ⟨k, page, ?_, g2, hmem, rfl⟩⟩
    · rintro (hlt | hall)
      · exfalso
        rcases hfo with ⟨e0, _⟩ | ⟨k', ek, _, hk2, hs, _⟩
        · rw [er] at e0; omega
        · have hmono : ((2 ^ k' : Nat) : Int) ≤ ((2 ^ MAX_ORDER : Nat) : Int) := by
            exact_mod_cast Nat.pow_le_pow_right (by norm_num) hk2
          omega
      · exfalso
        have := hall k (by rw [er]; exact_mod_cast g1) g2
        rw [this] at hmem
        exact absurd hmem (List.not_mem_nil _)
    · rw [er]; exact_mod_cast g1

/-- C6, failure atomicity: whenever `buddy_alloc(size)` returns `NULL` the state
after the call is the state before it; and `buddy_alloc(2 ^ MAX_ORDER + 1)`
returns `NULL`, in every state. -/
theorem buddy_alloc_failure_atomic (g : Nat) (s : State) :
    (∀ size : Int, (buddy_alloc g s size).1 = none → (buddy_alloc g s size).2 = s) ∧
    buddy_alloc g s (((2 ^ MAX_ORDER : Nat) : Int) + 1) = (none, s) := by
  constructor
  · intro size hn
    rcases buddy_alloc_cases g s size with
      ⟨_, e⟩ | ⟨r, _, _, _, ⟨e, _⟩ | ⟨k, page, t, _, _, _, _, e⟩⟩
    · rw [e]
    · rw [e]
    · rw [e] at hn; exact absurd hn (by simp)
  · have : find_order (((2 ^ MAX_ORDER : Nat) : Int) + 1) = -1 := by decide
    simp only [buddy_alloc]
    rw [if_pos this]

/-- C7, round trip: in a reachable state, when `buddy_alloc(size)` returns the
address `a`, `buddy_free(a)` right after it restores the free-list table: the
free list of every order is the list it was before the allocation, so holds
the same number of blocks. -/
theorem alloc_free_round_trip (g : Nat) (s : State) (live : List Nat) (size : Int) (a : Nat)
    (h : Reachable g s live) (ha : (buddy_alloc g s size).1 = some a) :
    ∀ o, MIN_ORDER ≤ o → o ≤ MAX_ORDER →
      (buddy_free g (buddy_alloc g s size).2 a).free_area o = s.free_area o ∧
      ((buddy_free g (buddy_alloc g s size).2 a).free_area o).length = (s.free_area o).length := by
  rcases buddy_alloc_cases g s size with
    ⟨_, e⟩ | ⟨r, _, h1, h2, ⟨e, _⟩ | ⟨k, page, t, g1, g2, g3, _, e⟩⟩
  · rw [e] at ha; exact absurd ha (by simp)
  · rw [e] at ha; exact absurd ha (by simp)
  · rw [e] at ha ⊢
    simp only [Option.some.injEq] at ha
    have hf : is_free s page k := ⟨by omega, g2, by rw [g3]; exact List.mem_cons_self _ _⟩
    rw [h.inv.free_addr hf] at ha
    intro o o1 o2
    have := free_alloc_state h.inv g3 g2 h1 g1 o o1 o2
    rw [← ha]
    simp only []
    rw [this]
    exact ⟨rfl, rfl⟩

set_option maxRecDepth 100000 in
theorem alloc_free_round_trip_witness :
    Reachable 0 (buddy_init 0 zero_state) [] ∧
    (buddy_alloc 0 (buddy_init 0 zero_state) 5000).1 = some 0 ∧
    ∀ o, MIN_ORDER ≤ o → o ≤ MAX_ORDER →
      (buddy_free 0 (buddy_alloc 0 (buddy_init 0 zero_state) 5000).2 0).free_area o =
        (buddy_init 0 zero_state).free_area o ∧
      ((buddy_free 0 (buddy_alloc 0 (buddy_init 0 zero_state) 5000).2 0).free_area o).length =
        ((buddy_init 0 zero_state).free_area o).length :=
  ⟨Reachable.init _, by decide,
    alloc_free_round_trip 0 (buddy_init 0 zero_state) [] 5000 0 (Reachable.init _) (by decide)⟩

/-- C8, maximal coalescing: in a reachable state, after `buddy_free` on a live
address the block it has put on the free list of its order `o` either has
`o = MAX_ORDER` or no block of that list is its buddy, the block at its offset
XOR `2 ^ o`; and in every reachable state no free list below `MAX_ORDER` holds
two blocks that are buddies. -/
theorem maximal_coalescing (g : Nat) (s : State) (live : List Nat) (h : Reachable g s live) :
    (∀ a, a ∈ live →
      (freed_block g s a).1 ∈ (buddy_free g s a).free_area (freed_block g s a).2 ∧
      ((freed_block g s a).2 = MAX_ORDER ∨
        ∀ q, q ∈ (buddy_free g s a).free_area (freed_block g s a).2 →
          ((buddy_free g s a).g_pages q).addr - g ≠
            (((buddy_free g s a).g_pages (freed_block g s a).1).addr - g) ^^^
              2 ^ (freed_block g s a).2)) ∧
    (∀ o p q, MIN_ORDER ≤ o → o < MAX_ORDER → p ∈ s.free_area o → q ∈ s.free_area o →
      (s.g_pages q).addr - g ≠ ((s.g_pages p).addr - g) ^^^ 2 ^ o) := by
  have key : ∀ (s : State) (live : List Nat), Inv g s live none →
      ∀ o p q, MIN_ORDER ≤ o → o < MAX_ORDER → p ∈ s.free_area o → q ∈ s.free_area o →
        (s.g_pages q).addr - g ≠ ((s.g_pages p).addr - g) ^^^ 2 ^ o := by
    intro s live hinv o p q h1 h2 hp hq he
    have hfp : is_free s p o := ⟨h1, by omega, hp⟩
    have hfq : is_free s q o := ⟨h1, by omega, hq⟩
    obtain ⟨_, _, w3, _⟩ := hinv.part.wf p o (Or.inl hfp)
    rw [hinv.free_addr hfp, hinv.free_addr hfq, PAGE_TO_ADDR_sub, PAGE_TO_ADDR_sub,
      ← buddy_page_off h1 w3] at he
    have := page_off_inj he
    subst this
    exact hinv.nobud p _ o hfp hfq (buddy_page_spec h1 w3)
  refine ⟨?_, key s live h.inv⟩
  intro a ha
  obtain ⟨hinv, _, hfree⟩ := buddy_free_inv_aux h.inv ha
  refine ⟨hfree.2.2, ?_⟩
  by_cases hm : (freed_block g s a).2 = MAX_ORDER
  · exact Or.inl hm
  · right
    intro q hq
    have hlt : (freed_block g s a).2 < MAX_ORDER := lt_of_le_of_ne hfree.2.1 hm
    exact key _ _ hinv _ _ q hfree.1 hlt hfree.2.2 hq

theorem maximal_coalescing_witness :
    Reachable 0 (buddy_alloc 0 (buddy_init 0 zero_state) 4096).2
      ((buddy_alloc 0 (buddy_init 0 zero_state) 4096).1.toList ++ []) ∧
    ((∀ a, a ∈ (buddy_alloc 0 (buddy_init 0 zero_state) 4096).1.toList ++ [] →
      (freed_block 0 (buddy_alloc 0 (buddy_init 0 zero_state) 4096).2 a).1 ∈
        (buddy_free 0 (buddy_alloc 0 (buddy_init 0 zero_state) 4096).2 a).free_area
          (freed_block 0 (buddy_alloc 0 (buddy_init 0 zero_state) 4096).2 a).2 ∧
      ((freed_block 0 (buddy_alloc 0 (buddy_init 0 zero_state) 4096).2 a).2 = MAX_ORDER ∨
        ∀ q, q ∈ (buddy_free 0 (buddy_alloc 0 (buddy_init 0 zero_state) 4096).2 a).free_area
            (freed_block 0 (buddy_alloc 0 (buddy_init 0 zero_state) 4096).2 a).2 →
          ((buddy_free 0 (buddy_alloc 0 (buddy_init 0 zero_state) 4096).2 a).g_pages q).addr - 0 ≠
            (((buddy_free 0 (buddy_alloc 0 (buddy_init 0 zero_state) 4096).2 a).g_pages
              (freed_block 0 (buddy_alloc 0 (buddy_init 0 zero_state) 4096).2 a).1).addr - 0) ^^^
              2 ^ (freed_block 0 (buddy_alloc 0 (buddy_init 0 zero_state) 4096).2 a).2)) ∧
    (∀ o p q, MIN_ORDER ≤ o → o < MAX_ORDER →
      p ∈ (buddy_alloc 0 (buddy_init 0 zero_state) 4096).2.free_area o →
      q ∈ (buddy_alloc 0 (buddy_init 0 zero_state) 4096).2.free_area o →
      ((buddy_alloc 0 (buddy_init 0 zero_state) 4096).2.g_pages q).addr - 0 ≠
        (((buddy_alloc 0 (buddy_init 0 zero_state) 4096).2.g_pages p).addr - 0) ^^^ 2 ^ o)) :=
  ⟨Reachable.alloc _ _ _ (Reachable.init _),
    maximal_coalescing _ _ _ (Reachable.alloc _ _ _ (Reachable.init _))⟩

/-- C9, postcondition of `buddy_init`: from any prior state, the record of
every page `i` has address `g_memory + i * 2 ^ MIN_ORDER`, page 0 has order
`MAX_ORDER` and every other page order `-1`, the free lists of the orders
`MIN_ORDER` to `MAX_ORDER - 1` are empty and the list of `MAX_ORDER` holds page
0 only: the free blocks are the one block of order `MAX_ORDER` at offset 0. -/
theorem buddy_init_post (g : Nat) (s0 : State) :
    (∀ i, i < 2 ^ (MAX_ORDER - MIN_ORDER) →
      ((buddy_init g s0).g_pages i).addr = g + i * 2 ^ MIN_ORDER ∧
      ((buddy_init g s0).g_pages i).order = (if i = 0 then (MAX_ORDER : Int) else -1)) ∧
    (∀ o, MIN_ORDER ≤ o → o < MAX_ORDER → (buddy_init g s0).free_area o = []) ∧
    (buddy_init g s0).free_area MAX_ORDER = [0] ∧
    free_blocks g (buddy_init g s0) = [(0, MAX_ORDER)] := by
  have hN : 2 ^ (MAX_ORDER - MIN_ORDER) = N_PAGES := by
    simp [N_PAGES, MAX_ORDER, MIN_ORDER, PAGE_SIZE]
  have hlists : ∀ o, MIN_ORDER ≤ o → o < MAX_ORDER → (buddy_init g s0).free_area o = [] := by
    intro o h1 h2
    rw [buddy_init_free_area, if_neg (by omega), if_pos ⟨h1, h2⟩]
  have htop : (buddy_init g s0).free_area MAX_ORDER = [0] := by
    rw [buddy_init_free_area, if_pos rfl]
  refine ⟨?_, hlists, htop, ?_⟩
  · intro i hi
    rw [hN] at hi
    rw [buddy_init_pages g s0 i hi]
    simp only [PAGE_TO_ADDR, PAGE_SIZE, Nat.one_shiftLeft, and_true]
    omega
  · have h0 : ((buddy_init g s0).g_pages 0).addr - g = 0 := by
      rw [(Inv.init g s0).addr 0 (by simp [N_PAGES, MAX_ORDER, MIN_ORDER, PAGE_SIZE])]
      simp [PAGE_TO_ADDR]
    have hr : List.range' MIN_ORDER (MAX_ORDER + 1 - MIN_ORDER) =
        [12, 13, 14, 15, 16, 17, 18, 19, MAX_ORDER] := by decide
    simp only [free_blocks]
    rw [hr]
    simp only [List.flatMap_cons, List.flatMap_nil]
    rw [hlists 12 (by decide) (by decide), hlists 13 (by decide) (by decide),
      hlists 14 (by decide) (by decide), hlists 15 (by decide) (by decide),
      hlists 16 (by decide) (by decide), hlists 17 (by decide) (by decide),
      hlists 18 (by decide) (by decide), hlists 19 (by decide) (by decide), htop]
    simp only [List.map_nil, List.map_cons, List.nil_append, List.append_nil, h0]

/-- C10, free-list consistency: in every reachable state a page on the free
list of order `o` has record order `o`, no free list holds a page twice, and no
page is on the free lists of two orders. -/
theorem free_list_consistency (g : Nat) (s : State) (live : List Nat) (h : Reachable g s live) :
    (∀ o p, MIN_ORDER ≤ o → o ≤ MAX_ORDER → p ∈ s.free_area o → (s.g_pages p).order = (o : Int)) ∧
    (∀ o, MIN_ORDER ≤ o → o ≤ MAX_ORDER → (s.free_area o).Nodup) ∧
    (∀ o k p, MIN_ORDER ≤ o → o ≤ MAX_ORDER → MIN_ORDER ≤ k → k ≤ MAX_ORDER →
      p ∈ s.free_area o → p ∈ s.free_area k → o = k) := by
  refine ⟨?_, h.inv.nodup, ?_⟩
  · intro o p h1 h2 hp
    exact h.inv.ford p o ⟨h1, h2, hp⟩
  · intro o k p h1 h2 g1 g2 hp hq
    exact h.inv.part.same_order (Or.inl ⟨h1, h2, hp⟩ : is_block g s live none p o)
      (Or.inl ⟨g1, g2, hq⟩)

theorem free_list_consistency_witness :
    Reachable 0 (buddy_alloc 0 (buddy_init 0 zero_state) 4096).2
      ((buddy_alloc 0 (buddy_init 0 zero_state) 4096).1.toList ++ []) ∧
    ((∀ o p, MIN_ORDER ≤ o → o ≤ MAX_ORDER →
        p ∈ (buddy_alloc 0 (buddy_init 0 zero_state) 4096).2.free_area o →
        ((buddy_alloc 0 (buddy_init 0 zero_state) 4096).2.g_pages p).order = (o : Int)) ∧
    (∀ o, MIN_ORDER ≤ o → o ≤ MAX_ORDER →
      ((buddy_alloc 0 (buddy_init 0 zero_state) 4096).2.free_area o).Nodup) ∧
    (∀ o k p, MIN_ORDER ≤ o → o ≤ MAX_ORDER → MIN_ORDER ≤ k → k ≤ MAX_ORDER →
      p ∈ (buddy_alloc 0 (buddy_init 0 zero_state) 4096).2.free_area o →
      p ∈ (buddy_alloc 0 (buddy_init 0 zero_state) 4096).2.free_area k → o = k)) :=
  ⟨Reachable.alloc _ _ _ (Reachable.init _),
    free_list_consistency _ _ _ (Reachable.alloc _ _ _ (Reachable.init _))⟩

/-! ## Record orders of pages that head no block -/

theorem ord_ok_set_order {s : State} {q k : Nat} (h : ord_ok s) (hw : blk_wf q k) :
    ord_ok (set_order s q k) := by
  intro j hj
  by_cases e : j = q
  · subst e
    right
    exact ⟨k, set_order_order_eq _ _ _, hw.1, hw.2.1, hw.2.2.1⟩
  · rw [set_order_order_ne _ _ _ _ e]; exact h j hj

theorem split_ord_ok (g : Nat) (live : List Nat) (p r : Nat) :
    ∀ (o : Nat) (s : State), Inv g s live (some (p, o)) → ord_ok s → MIN_ORDER ≤ r → r ≤ o →
      ord_ok (split g s p o r) := by
  intro o
  induction o with
  | zero => intro s _ h _ _; exact h
  | succ o ih =>
    intro s h hok hr hle
    rw [split]
    by_cases he : o + 1 = r
    · rw [if_pos he]; exact hok
    · rw [if_neg he]
      simp only []
      rw [h.pend_addr, buddy_page_eq]
      have h2 := h.split_step (show MIN_ORDER ≤ o by omega)
      have hw : blk_wf (buddy_page p o) o :=
        h2.part.wf _ _ (Or.inl ((is_free_add s _ o _ o (by omega)
          (by have := (h.part.wf p (o + 1) (Or.inr (Or.inr rfl))).2.1; omega) _).2
          (Or.inr ⟨rfl, rfl⟩)))
      exact ih _ h2 (ord_ok_set_order hok hw) hr (by omega)

theorem buddy_free_loop_pages (g : Nat) : ∀ (n : Nat) (s : State) (p i : Nat),
    (buddy_free_loop g n s p i).1.g_pages = s.g_pages := by
  intro n
  induction n with
  | zero => intro s p i; rfl
  | succ n ih =>
    intro s p i
    rw [buddy_free_loop]
    simp only []
    by_cases hm : ADDR_TO_PAGE g (BUDDY_ADDR g (s.g_pages p).addr i) ∈ s.free_area i
    · rw [decide_eq_true hm]
      simp only [Bool.not_true, Bool.false_eq_true, if_false]
      rw [ih]; rfl
    · rw [decide_eq_false hm]
      simp only [Bool.not_false, if_true]

theorem buddy_alloc_ord_ok {g : Nat} {s : State} {live : List Nat} (size : Int)
    (h : Inv g s live none) (hok : ord_ok s) : ord_ok (buddy_alloc g s size).2 := by
  rcases buddy_alloc_cases g s size with
    ⟨_, e⟩ | ⟨r, _, h1, h2, ⟨e, _⟩ | ⟨k, page, t, g1, g2, g3, _, e⟩⟩
  · rw [e]; exact hok
  · rw [e]; exact hok
  · rw [e]
    have hf : is_free s page k := ⟨by omega, g2, by rw [g3]; exact List.mem_cons_self _ _⟩
    have h1' := h.take hf
    have h2' := split_inv g live page r h1 k _ h1' g1
    exact ord_ok_set_order (split_ord_ok g live page r k _ h1' hok h1 g1)
      (h2'.part.wf page r (Or.inr (Or.inr rfl)))

theorem buddy_free_ord_ok {g : Nat} {s : State} {live : List Nat} {a : Nat}
    (h : Inv g s live none) (hok : ord_ok s) (ha : a ∈ live) : ord_ok (buddy_free g s a) := by
  obtain ⟨p, o, e, hor, hinv⟩ := h.reclaim ha
  obtain ⟨w1, w2, w3, w4⟩ := hinv.part.wf p o (Or.inr (Or.inr rfl))
  obtain ⟨hl, _⟩ := buddy_free_loop_inv g (live.erase a) (MAX_ORDER - o) s p o hinv (by omega)
  have hw := hl.part.wf _ _ (Or.inr (Or.inr rfl))
  have hpg := buddy_free_loop_pages g (MAX_ORDER - o) s p o
  have hbf : buddy_free g s a =
      list_add (set_order (buddy_free_loop g (MAX_ORDER - o) s p o).1
        (buddy_free_loop g (MAX_ORDER - o) s p o).2.1 (buddy_free_loop g (MAX_ORDER - o) s p o).2.2)
        (buddy_free_loop g (MAX_ORDER - o) s p o).2.1 (buddy_free_loop g (MAX_ORDER - o) s p o).2.2 := by
    simp only [buddy_free]
    rw [e, ADDR_TO_PAGE_PAGE_TO_ADDR, hor, Int.toNat_ofNat]
  rw [hbf]
  generalize buddy_free_loop g (MAX_ORDER - o) s p o = R at *
  have hok' : ord_ok R.1 := by
    intro q hq; rw [hpg]; exact hok q hq
  exact ord_ok_set_order hok' hw

theorem Reachable.ord_ok {g : Nat} {s : State} {live : List Nat} (h : Reachable g s live) :
    ord_ok s := by
  induction h with
  | init s0 =>
    intro q hq
    rw [buddy_init_pages g s0 q hq]
    by_cases h0 : q = 0
    · right
      subst h0
      exact ⟨MAX_ORDER, by simp, by simp [MIN_ORDER, MAX_ORDER], le_refl _, by simp [page_off]⟩
    · left; simp [h0]
  | alloc s live size hr ih => exact buddy_alloc_ord_ok size hr.inv ih
  | free s live a hr ha ih => exact buddy_free_ord_ok hr.inv ih ha

theorem aligned_in_block {x y M : Nat} (hx : M ∣ x) (hy : M ∣ y) (h1 : x ≤ y) (h2 : y < x + M) :
    y = x := by
  have hd : M ∣ y - x := Nat.dvd_sub' hy hx
  have := Nat.eq_zero_of_dvd_of_lt hd (by omega)
  omega

/-- C11, as the code has it: in every reachable state the head page of a free
block carries the order of its list, the head page of a live allocation
carries an order from `MIN_ORDER` to `MAX_ORDER`, and every page that heads
neither a free nor a live block lies in a block headed elsewhere and has
record order `-1` or keeps an order `k` of the table, to whose block size it is
aligned and which is below the order of the block around it: the order of a
block it headed before a merge. -/
theorem stale_order_invariant (g : Nat) (s : State) (live : List Nat) (h : Reachable g s live) :
    (∀ p o, is_free s p o → (s.g_pages p).order = (o : Int)) ∧
    (∀ a, a ∈ live → ∃ o : Nat, (s.g_pages (ADDR_TO_PAGE g a)).order = (o : Int) ∧
      MIN_ORDER ≤ o ∧ o ≤ MAX_ORDER) ∧
    (∀ q, q < N_PAGES → (∀ o, ¬ is_free s q o) → PAGE_TO_ADDR g q ∉ live →
      ∃ p o, (is_free s p o ∨ is_live g s live p o) ∧ blk_in (page_off q) p o ∧ q ≠ p ∧
        ((s.g_pages q).order = -1 ∨
          ∃ k : Nat, (s.g_pages q).order = (k : Int) ∧ MIN_ORDER ≤ k ∧ k < o ∧
            2 ^ k ∣ page_off q)) := by
  refine ⟨fun p o hf => h.inv.ford p o hf, ?_, ?_⟩
  · intro a ha
    obtain ⟨p, o, e, hor⟩ := h.inv.live_page a ha
    have hw := h.inv.part.wf p o (Or.inr (Or.inl ⟨e ▸ ha, hor⟩))
    exact ⟨o, by rw [e, ADDR_TO_PAGE_PAGE_TO_ADDR]; exact hor, hw.1, hw.2.1⟩
  · intro q hq hnf hnl
    have hx : page_off q < 2 ^ MAX_ORDER := by
      simp only [page_off, PAGE_SIZE, MAX_ORDER, MIN_ORDER, N_PAGES, Nat.one_shiftLeft] at hq ⊢
      norm_num at hq ⊢
      omega
    obtain ⟨p, o, hblk, hin⟩ := h.inv.part.cover (page_off q) hx
    have hb : is_free s p o ∨ is_live g s live p o := by
      rcases hblk with hf | hl | he
      · exact Or.inl hf
      · exact Or.inr hl
      · exact absurd he (by simp)
    have hne : q ≠ p := by
      rintro rfl
      rcases hb with hf | hl
      · exact hnf o hf
      · exact hnl hl.1
    obtain ⟨w1, w2, w3, w4⟩ := h.inv.part.wf p o hblk
    refine ⟨p, o, hb, hin, hne, ?_⟩
    rcases h.ord_ok q hq with e | ⟨k, e, k1, k2, k3⟩
    · exact Or.inl e
    · right
      refine ⟨k, e, k1, ?_, k3⟩
      by_contra hge
      have hd : 2 ^ o ∣ page_off q := Dvd.dvd.trans (pow_dvd_pow 2 (by omega)) k3
      exact hne (page_off_inj (aligned_in_block w3 hd hin.1 hin.2))

set_option maxRecDepth 100000 in
theorem stale_order_invariant_witness :
    Reachable 0 merged_pair_state [8192] ∧
    (merged_pair_state.g_pages 1).order = 12 ∧
    (merged_pair_state.g_pages 3).order = 12 ∧
    (merged_pair_state.g_pages 5).order = -1 ∧
    merged_pair_state.free_area 13 = [0] ∧
    ((∀ p o, is_free merged_pair_state p o → (merged_pair_state.g_pages p).order = (o : Int)) ∧
    (∀ a, a ∈ [8192] → ∃ o : Nat,
      (merged_pair_state.g_pages (ADDR_TO_PAGE 0 a)).order = (o : Int) ∧
      MIN_ORDER ≤ o ∧ o ≤ MAX_ORDER) ∧
    (∀ q, q < N_PAGES → (∀ o, ¬ is_free merged_pair_state q o) → PAGE_TO_ADDR 0 q ∉ [8192] →
      ∃ p o, (is_free merged_pair_state p o ∨ is_live 0 merged_pair_state [8192] p o) ∧
        blk_in (page_off q) p o ∧ q ≠ p ∧
        ((merged_pair_state.g_pages q).order = -1 ∨
          ∃ k : Nat, (merged_pair_state.g_pages q).order = (k : Int) ∧ MIN_ORDER ≤ k ∧ k < o ∧
            2 ^ k ∣ page_off q))) :=
  ⟨merged_pair_reachable, by decide, by decide, by decide, by decide,
    stale_order_invariant 0 merged_pair_state [8192] merged_pair_reachable⟩

set_option maxRecDepth 100000 in
/-- C11 fails as stated: after `buddy_init`, `buddy_alloc(4096)` and
`buddy_free` of the returned address, no allocation is live, page 1 is on no
free list of the table, and yet its record order is 12, not `-1`. -/
theorem sentinel_order_counterexample :
    ¬ (∀ (s : State) (live : List Nat), Reachable 0 s live →
        ∀ q, q < N_PAGES → (∀ o, ¬ is_free s q o) → PAGE_TO_ADDR 0 q ∉ live →
          (s.g_pages q).order = -1) := by
  intro hc
  have hr : Reachable 0 (buddy_free 0 (buddy_alloc 0 (buddy_init 0 zero_state) 4096).2 0)
      (((buddy_alloc 0 (buddy_init 0 zero_state) 4096).1.toList ++ []).erase 0) :=
    Reachable.free _ _ 0 (Reachable.alloc _ _ 4096 (Reachable.init zero_state)) (by decide)
  have h1 := hc _ _ hr 1 (by decide) ?_ (by decide)
  · revert h1; decide
  · rintro o ⟨o1, o2, hm⟩
    simp only [MIN_ORDER, MAX_ORDER] at o1 o2
    interval_cases o <;> revert hm <;> decide

/-! ## The outcome of `split` -/

theorem split_steps_spec (g : Nat) (p r : Nat) : ∀ (o : Nat) (s : State), r ≤ o →
    (split_steps g s p o r).1 = split g s p o r ∧ (split_steps g s p o r).2 = o - r := by
  intro o
  induction o with
  | zero => intro s _; exact ⟨rfl, by simp [split_steps]⟩
  | succ o ih =>
    intro s hle
    rw [split_steps, split]
    by_cases he : o + 1 = r
    · rw [if_pos he, if_pos he]; exact ⟨rfl, by omega⟩
    · rw [if_neg he, if_neg he]
      simp only []
      obtain ⟨e1, e2⟩ := ih (list_add (set_order s
        (ADDR_TO_PAGE g (BUDDY_ADDR g (s.g_pages p).addr o)) o)
        (ADDR_TO_PAGE g (BUDDY_ADDR g (s.g_pages p).addr o)) o) (by omega)
      exact ⟨e1, by rw [e2]; omega⟩

theorem split_free_area (g : Nat) (p r : Nat) : ∀ (o : Nat) (s : State), r ≤ o → ∀ k,
    (split g s p o r).free_area k =
      if r ≤ k ∧ k < o then ADDR_TO_PAGE g (BUDDY_ADDR g (s.g_pages p).addr k) :: s.free_area k
      else s.free_area k := by
  intro o
  induction o with
  | zero => intro s _ k; rw [if_neg (by omega)]; rfl
  | succ o ih =>
    intro s hle k
    rw [split]
    by_cases he : o + 1 = r
    · rw [if_pos he, if_neg (by omega)]
    · rw [if_neg he]
      simp only []
      rw [ih _ (by omega) k, list_add_pages, set_order_addr]
      simp only [list_add, set_order]
      by_cases hk : r ≤ k ∧ k < o
      · rw [if_pos hk, if_neg (show ¬ k = o by omega),
          if_pos (show r ≤ k ∧ k < o + 1 from ⟨hk.1, by omega⟩)]
      · rw [if_neg hk]
        by_cases hko : k = o
        · rw [if_pos hko, if_pos (show r ≤ k ∧ k < o + 1 by omega), hko]
        · rw [if_neg hko, if_neg (show ¬ (r ≤ k ∧ k < o + 1) by omega)]

theorem buddy_page_lower {p k : Nat} (hk : MIN_ORDER ≤ k) (h : 2 ^ (k + 1) ∣ page_off p) :
    page_off (buddy_page p k) = page_off p + 2 ^ k := by
  rw [buddy_page_off hk (dvd_half h), xor_pow_lower _ _ h]

theorem alloc_state_free_area {g : Nat} {s : State} {live : List Nat} {page i r : Nat}
    {t : List Nat} (h : Inv g s live none) (hl : s.free_area i = page :: t)
    (hi : i ≤ MAX_ORDER) (hr : MIN_ORDER ≤ r) (hri : r ≤ i) :
    ∀ k, MIN_ORDER ≤ k → k ≤ MAX_ORDER →
      (alloc_state g s page i r).free_area k =
        if r ≤ k ∧ k < i then buddy_page page k :: s.free_area k
        else if k = i then t else s.free_area k := by
  intro k k1 k2
  have hf : is_free s page i := ⟨by omega, hi, by rw [hl]; exact List.mem_cons_self _ _⟩
  simp only [alloc_state]
  rw [set_order_free_area, split_free_area g page r i _ hri k]
  have hdel : (list_del_init s page).free_area k = if k = i then t else s.free_area k := by
    simp only [list_del_init]
    by_cases hk : k = i
    · rw [if_pos hk, hk, hl, List.erase_cons_head]
    · rw [if_neg hk]
      refine List.erase_of_not_mem (fun hm => hk ?_)
      exact h.part.same_order (Or.inl ⟨k1, k2, hm⟩ : is_block g s live none page k) (Or.inl hf)
  have haddr : ((list_del_init s page).g_pages page).addr = PAGE_TO_ADDR g page := h.free_addr hf
  rw [haddr, buddy_page_eq, hdel]
  by_cases hk : r ≤ k ∧ k < i
  · rw [if_pos hk, if_pos hk, if_neg (by omega)]
  · rw [if_neg hk, if_neg hk]

/-- C15, postcondition of the split: in a reachable state, when
`buddy_alloc(size)` with `r = find_order(size)` takes the page at the head of
the free list of order `i ≥ r` and returns its address `a`, the list of order
`i` has lost exactly that page, every list of order `k` with `r ≤ k < i` has
gained one page in front, at offset `a XOR 2 ^ k` and with record order `k`,
every other list of the table is unchanged, the record of the page has order
`r`, the page is on no free list, and `split` made exactly `i - r` splits. -/
theorem split_postcondition (g : Nat) (s : State) (live : List Nat) (size : Int) (a : Nat)
    (h : Reachable g s live) (ha : (buddy_alloc g s size).1 = some a) :
    ∃ (r i page : Nat) (t : List Nat),
      find_order size = (r : Int) ∧ r ≤ i ∧ i ≤ MAX_ORDER ∧
      s.free_area i = page :: t ∧ a = (s.g_pages page).addr ∧
      (buddy_alloc g s size).2.free_area i = t ∧ page ∉ t ∧
      (∀ k, r ≤ k → k < i → ∃ b,
        (buddy_alloc g s size).2.free_area k = b :: s.free_area k ∧
        ((buddy_alloc g s size).2.g_pages b).addr - g = (a - g) ^^^ 2 ^ k ∧
        ((buddy_alloc g s size).2.g_pages b).order = (k : Int)) ∧
      (∀ k, MIN_ORDER ≤ k → k ≤ MAX_ORDER → ¬ (r ≤ k ∧ k ≤ i) →
        (buddy_alloc g s size).2.free_area k = s.free_area k) ∧
      ((buddy_alloc g s size).2.g_pages page).order = (r : Int) ∧
      (∀ k, MIN_ORDER ≤ k → k ≤ MAX_ORDER → page ∉ (buddy_alloc g s size).2.free_area k) ∧
      (split_steps g (list_del_init s page) page i r).1 =
        split g (list_del_init s page) page i r ∧
      (split_steps g (list_del_init s page) page i r).2 = i - r := by
  rcases buddy_alloc_cases g s size with
    ⟨_, e⟩ | ⟨r, er, h1, h2, ⟨e, _⟩ | ⟨i, page, t, g1, g2, g3, _, e⟩⟩
  · rw [e] at ha; exact absurd ha (by simp)
  · rw [e] at ha; exact absurd ha (by simp)
  · rw [e] at ha ⊢
    simp only [Option.some.injEq] at ha
    have hf : is_free s page i := ⟨by omega, g2, by rw [g3]; exact List.mem_cons_self _ _⟩
    have hpost : Inv g (alloc_state g s page i r) (PAGE_TO_ADDR g page :: live) none :=
      alloc_state_inv h.inv hf h1 g1
    have hfa := alloc_state_free_area h.inv g3 g2 h1 g1
    have haddr := h.inv.free_addr hf
    obtain ⟨_, _, w3, _⟩ := h.inv.part.wf page i (Or.inl hf)
    have hnd := h.inv.nodup i hf.1 g2
    rw [g3] at hnd
    obtain ⟨sp1, sp2⟩ := split_steps_spec g page r i (list_del_init s page) g1
    refine ⟨r, i, page, t, er, g1, g2, g3, ha.symm, ?_, (List.nodup_cons.1 hnd).1, ?_, ?_, ?_,
      ?_, sp1, sp2⟩
    · simp only []
      rw [hfa i hf.1 g2, if_neg (by omega), if_pos rfl]
    · intro k k1 k2
      simp only []
      have hk : (alloc_state g s page i r).free_area k = buddy_page page k :: s.free_area k := by
        rw [hfa k (by omega) (by omega), if_pos ⟨k1, k2⟩]
      have hbf : is_free (alloc_state g s page i r) (buddy_page page k) k :=
        ⟨by omega, by omega, by rw [hk]; exact List.mem_cons_self _ _⟩
      refine ⟨buddy_page page k, hk, ?_, hpost.ford _ _ hbf⟩
      rw [hpost.free_addr hbf, PAGE_TO_ADDR_sub, ← ha, haddr, PAGE_TO_ADDR_sub]
      exact buddy_page_off (by omega) (Dvd.dvd.trans (pow_dvd_pow 2 (by omega)) w3)
    · intro k k1 k2 hk
      simp only []
      rw [hfa k k1 k2, if_neg (by omega), if_neg (by omega)]
    · exact set_order_order_eq _ _ _
    · intro k k1 k2 hm
      exact hpost.excl_fl page k ⟨k1, k2, hm⟩ (List.mem_cons_self _ _)

set_option maxRecDepth 100000 in
theorem split_postcondition_witness :
    Reachable 0 (buddy_init 0 zero_state) [] ∧
    (buddy_alloc 0 (buddy_init 0 zero_state) 70000).1 = some 0 ∧
    ∃ (r i page : Nat) (t : List Nat),
      find_order 70000 = (r : Int) ∧ r ≤ i ∧ i ≤ MAX_ORDER ∧
      (buddy_init 0 zero_state).free_area i = page :: t ∧
      0 = ((buddy_init 0 zero_state).g_pages page).addr ∧
      (buddy_alloc 0 (buddy_init 0 zero_state) 70000).2.free_area i = t ∧ page ∉ t ∧
      (∀ k, r ≤ k → k < i → ∃ b,
        (buddy_alloc 0 (buddy_init 0 zero_state) 70000).2.free_area k =
          b :: (buddy_init 0 zero_state).free_area k ∧
        ((buddy_alloc 0 (buddy_init 0 zero_state) 70000).2.g_pages b).addr - 0 =
          (0 - 0) ^^^ 2 ^ k ∧
        ((buddy_alloc 0 (buddy_init 0 zero_state) 70000).2.g_pages b).order = (k : Int)) ∧
      (∀ k, MIN_ORDER ≤ k → k ≤ MAX_ORDER → ¬ (r ≤ k ∧ k ≤ i) →
        (buddy_alloc 0 (buddy_init 0 zero_state) 70000).2.free_area k =
          (buddy_init 0 zero_state).free_area k) ∧
      ((buddy_alloc 0 (buddy_init 0 zero_state) 70000).2.g_pages page).order = (r : Int) ∧
      (∀ k, MIN_ORDER ≤ k → k ≤ MAX_ORDER →
        page ∉ (buddy_alloc 0 (buddy_init 0 zero_state) 70000).2.free_area k) ∧
      (split_steps 0 (list_del_init (buddy_init 0 zero_state) page) page i r).1 =
        split 0 (list_del_init (buddy_init 0 zero_state) page) page i r ∧
      (split_steps 0 (list_del_init (buddy_init 0 zero_state) page) page i r).2 = i - r :=
  ⟨Reachable.init _, by decide,
    split_postcondition 0 (buddy_init 0 zero_state) [] 70000 0 (Reachable.init _) (by decide)⟩

/-! ## A state without live allocations -/

theorem mult_step {M x y : Nat} (hx : M ∣ x) (hy : M ∣ y) (h : x < y) : x + M ≤ y := by
  obtain ⟨a, rfl⟩ := hx
  obtain ⟨b, rfl⟩ := hy
  have hab : a < b := Nat.lt_of_mul_lt_mul_left h
  have := Nat.mul_le_mul_left M (Nat.succ_le_of_lt hab)
  rw [Nat.mul_succ] at this
  exact this

theorem buddies_in_arena {p q o : Nat} (hw : blk_wf p o) (ho : o < MAX_ORDER)
    (hb : buddies p q o) : page_off q + 2 ^ o ≤ 2 ^ MAX_ORDER := by
  obtain ⟨w1, w2, w3, w4⟩ := hw
  have h0 := Nat.two_pow_pos o
  have h2o := pow_succ_two o
  rcases hb with ⟨e, d⟩ | ⟨e, _⟩
  · have hM : 2 ^ (o + 1) ∣ 2 ^ MAX_ORDER := pow_dvd_pow 2 (by omega)
    have := mult_step d hM (by omega)
    omega
  · omega

/-- A block of larger order that contains the start of one of two buddies
contains both. -/
theorem buddies_in_block {p q o r k : Nat} (hb : buddies p q o) (hk : o < k)
    (hd : 2 ^ k ∣ page_off r) (hin : blk_in (page_off q) r k) : blk_in (page_off p) r k := by
  have h0 := Nat.two_pow_pos o
  have h2o := pow_succ_two o
  have hM : 2 ^ (o + 1) ∣ 2 ^ k := pow_dvd_pow 2 (by omega)
  have hr : 2 ^ (o + 1) ∣ page_off r := Dvd.dvd.trans hM hd
  have hr2 : 2 ^ (o + 1) ∣ page_off r + 2 ^ k := (Nat.dvd_add_right hr).2 hM
  obtain ⟨i1, i2⟩ := hin
  simp only [blk_in]
  rcases hb with ⟨e, d⟩ | ⟨e, d⟩
  · -- `q` is the upper half
    constructor
    · by_contra hlt
      have := mult_step d hr (by omega)
      omega
    · omega
  · -- `q` is the lower half
    constructor
    · omega
    · have := mult_step d hr2 (by omega)
      omega

theorem Inv.all_free_top {g : Nat} {s : State} (h : Inv g s [] none) :
    ∀ o p, is_free s p o → o = MAX_ORDER := by
  by_contra hcon
  push_neg at hcon
  have hex : ∃ o, ∃ p, is_free s p o ∧ o ≠ MAX_ORDER := by
    obtain ⟨o, p, hf, hne⟩ := hcon
    exact ⟨o, p, hf, hne⟩
  classical
  obtain ⟨p, hf, hne⟩ := Nat.find_spec hex
  have hmin := fun m (hm : m < Nat.find hex) => Nat.find_min hex hm
  generalize Nat.find hex = o at *
  have hlt : o < MAX_ORDER := lt_of_le_of_ne hf.2.1 hne
  have hw := h.part.wf p o (Or.inl hf)
  obtain ⟨w1, w2, w3, w4⟩ := hw
  have hb := buddy_page_spec w1 w3
  have hq := buddies_in_arena ⟨w1, w2, w3, w4⟩ hlt hb
  have h0 := Nat.two_pow_pos o
  obtain ⟨r, k, hblk, hin⟩ := h.part.cover (page_off (buddy_page p o)) (by omega)
  have hrf : is_free s r k := by
    rcases hblk with hf' | hl | he
    · exact hf'
    · exact absurd hl.1 (List.not_mem_nil _)
    · exact absurd he (by simp)
  obtain ⟨v1, v2, v3, v4⟩ := h.part.wf r k hblk
  have hko : o ≤ k := by
    by_contra hlt2
    exact hmin k (by omega) ⟨r, hrf, by omega⟩
  rcases Nat.eq_or_lt_of_le hko with e | hlt2
  · subst e
    have hdq : 2 ^ o ∣ page_off (buddy_page p o) := by
      rcases hb with ⟨e, d⟩ | ⟨e, d⟩
      · rw [e]; exact (Nat.dvd_add_right w3).2 (dvd_refl _)
      · exact dvd_half d
    have := page_off_inj (aligned_in_block v3 hdq hin.1 hin.2)
    subst this
    exact h.nobud p _ o hf hrf hb
  · have hin2 := buddies_in_block hb hlt2 v3 hin
    have := (h.part.disj p o r k (page_off p) (Or.inl hf) hblk blk_in_self hin2).2
    omega

theorem list_eq_singleton {l : List Nat} {a : Nat} (hn : l.Nodup) (hall : ∀ x, x ∈ l → x = a)
    (hm : a ∈ l) : l = [a] := by
  match l, hn, hall, hm with
  | [], _, _, hm => exact absurd hm (List.not_mem_nil _)
  | [x], _, hall, _ => rw [hall x (List.mem_cons_self _ _)]
  | x :: y :: t, hn, hall, _ =>
    have hx := hall x (List.mem_cons_self _ _)
    have hy := hall y (List.mem_cons_of_mem _ (List.mem_cons_self _ _))
    have := (List.nodup_cons.1 hn).1
    rw [hx, hy] at this
    exact absurd (List.mem_cons_self _ _) this

/-- Without live allocations the free lists are those of `buddy_init`. -/
theorem Inv.table_of_no_live {g : Nat} {s : State} (h : Inv g s [] none) :
    s.free_area MAX_ORDER = [0] ∧ ∀ o, MIN_ORDER ≤ o → o < MAX_ORDER → s.free_area o = [] := by
  have htop := h.all_free_top
  have hle : MIN_ORDER ≤ MAX_ORDER := by simp [MIN_ORDER, MAX_ORDER]
  constructor
  · refine list_eq_singleton (h.nodup MAX_ORDER hle (le_refl _)) ?_ ?_
    · intro x hx
      obtain ⟨_, _, _, w4⟩ := h.part.wf x MAX_ORDER (Or.inl ⟨hle, le_refl _, hx⟩)
      exact page_off_inj (show page_off x = page_off 0 by simp only [page_off] at *; omega)
    · obtain ⟨r, k, hblk, hin⟩ := h.part.cover 0 (Nat.two_pow_pos _)
      have hrf : is_free s r k := by
        rcases hblk with hf' | hl | he
        · exact hf'
        · exact absurd hl.1 (List.not_mem_nil _)
        · exact absurd he (by simp)
      have hk := htop k r hrf
      subst hk
      have : r = 0 := page_off_inj (show page_off r = page_off 0 by
        have := hin.1; simp only [page_off] at *; omega)
      rw [← this]; exact hrf.2.2
  · intro o o1 o2
    cases hl : s.free_area o with
    | nil => rfl
    | cons x t =>
      have := htop o x ⟨o1, by omega, by rw [hl]; exact List.mem_cons_self _ _⟩
      omega

theorem free_all_reachable (g : Nat) : ∀ (l : List Nat) (s : State) (live : List Nat),
    Reachable g s live → l.Perm live → Reachable g (free_all g s l) [] := by
  intro l
  induction l with
  | nil =>
    intro s live h hp
    have := List.Perm.nil_eq hp
    subst this
    exact h
  | cons a l ih =>
    intro s live h hp
    have ha : a ∈ live := hp.subset (List.mem_cons_self _ _)
    have hp2 : l.Perm (live.erase a) := by
      have := List.Perm.erase a hp
      rwa [List.erase_cons_head] at this
    exact ih _ _ (Reachable.free s live a h ha) hp2

/-- C17, full coalescing: from a reachable state, `buddy_free` on all the live
addresses, in any order, ends with the free-list table of `buddy_init`: the
list of `MAX_ORDER` holds exactly page 0, whose address is the arena base, and
every other list is empty. -/
theorem full_coalescing (g : Nat) (s : State) (live l : List Nat) (h : Reachable g s live)
    (hp : l.Perm live) :
    (free_all g s l).free_area MAX_ORDER = [0] ∧
    ((free_all g s l).g_pages 0).addr = g ∧
    (∀ o, MIN_ORDER ≤ o → o < MAX_ORDER → (free_all g s l).free_area o = []) ∧
    (∀ s0 o, MIN_ORDER ≤ o → o ≤ MAX_ORDER →
      (free_all g s l).free_area o = (buddy_init g s0).free_area o) := by
  have hr := free_all_reachable g l s live h hp
  obtain ⟨h1, h2⟩ := hr.inv.table_of_no_live
  refine ⟨h1, ?_, h2, ?_⟩
  · rw [hr.inv.addr 0 (by simp [N_PAGES, MAX_ORDER, MIN_ORDER, PAGE_SIZE])]
    simp [PAGE_TO_ADDR]
  · intro s0 o o1 o2
    rcases Nat.eq_or_lt_of_le o2 with e | hlt
    · rw [e, h1, (Inv.init g s0).table_of_no_live.1]
    · rw [h2 o o1 hlt, (Inv.init g s0).table_of_no_live.2 o o1 hlt]

set_option maxRecDepth 100000 in
theorem full_coalescing_witness :
    Reachable 0 (buddy_alloc 0 (buddy_alloc 0 (buddy_init 0 zero_state) 4096).2 9000).2
      ((buddy_alloc 0 (buddy_alloc 0 (buddy_init 0 zero_state) 4096).2 9000).1.toList ++
        ((buddy_alloc 0 (buddy_init 0 zero_state) 4096).1.toList ++ [])) ∧
    List.Perm [0, 16384]
      ((buddy_alloc 0 (buddy_alloc 0 (buddy_init 0 zero_state) 4096).2 9000).1.toList ++
        ((buddy_alloc 0 (buddy_init 0 zero_state) 4096).1.toList ++ [])) ∧
    ((free_all 0 (buddy_alloc 0 (buddy_alloc 0 (buddy_init 0 zero_state) 4096).2 9000).2
        [0, 16384]).free_area MAX_ORDER = [0] ∧
    ((free_all 0 (buddy_alloc 0 (buddy_alloc 0 (buddy_init 0 zero_state) 4096).2 9000).2
        [0, 16384]).g_pages 0).addr = 0 ∧
    (∀ o, MIN_ORDER ≤ o → o < MAX_ORDER →
      (free_all 0 (buddy_alloc 0 (buddy_alloc 0 (buddy_init 0 zero_state) 4096).2 9000).2
        [0, 16384]).free_area o = []) ∧
    (∀ s0 o, MIN_ORDER ≤ o → o ≤ MAX_ORDER →
      (free_all 0 (buddy_alloc 0 (buddy_alloc 0 (buddy_init 0 zero_state) 4096).2 9000).2
        [0, 16384]).free_area o = (buddy_init 0 s0).free_area o)) :=
  ⟨Reachable.alloc _ _ _ (Reachable.alloc _ _ _ (Reachable.init _)), by decide,
    full_coalescing 0 _ _ [0, 16384]
      (Reachable.alloc _ _ 9000 (Reachable.alloc _ _ 4096 (Reachable.init zero_state)))
      (by decide)⟩

/-! ## The scenarios after `buddy_init` -/

theorem find_order_page : find_order 4096 = (MIN_ORDER : Int) := by decide

/-- The first `buddy_alloc(4096)` after `buddy_init` takes page 0 from the list of `MAX_ORDER`. -/
theorem init_alloc_eq (g : Nat) (s0 : State) :
    buddy_alloc g (buddy_init g s0) 4096 =
      (some g, alloc_state g (buddy_init g s0) 0 MAX_ORDER MIN_ORDER) := by
  have hinv := Inv.init g s0
  obtain ⟨t1, t2⟩ := hinv.table_of_no_live
  rcases buddy_alloc_cases g (buddy_init g s0) 4096 with
    ⟨e0, _⟩ | ⟨r, er, h1, h2, ⟨_, hall⟩ | ⟨k, page, t, g1, g2, g3, _, e⟩⟩
  · rw [find_order_page] at e0; simp [MIN_ORDER] at e0
  · have := hall MAX_ORDER h2 (le_refl _)
    rw [t1] at this
    exact absurd this (by simp)
  · rw [find_order_page] at er
    have hr : r = MIN_ORDER := by exact_mod_cast er.symm
    have hk : k = MAX_ORDER := by
      by_contra hne
      have := t2 k (by omega) (lt_of_le_of_ne g2 hne)
      rw [this] at g3
      exact absurd g3 (by simp)
    subst hk
    rw [t1] at g3
    simp only [List.cons.injEq] at g3
    obtain ⟨rfl, _⟩ := g3
    rw [e, hr, hinv.addr 0 (by simp [N_PAGES, MAX_ORDER, MIN_ORDER, PAGE_SIZE])]
    simp [PAGE_TO_ADDR]

theorem init_alloc_free_area (g : Nat) (s0 : State) (k : Nat) (k1 : MIN_ORDER ≤ k)
    (k2 : k ≤ MAX_ORDER) :
    (alloc_state g (buddy_init g s0) 0 MAX_ORDER MIN_ORDER).free_area k =
      if k < MAX_ORDER then [buddy_page 0 k] else [] := by
  have hinv := Inv.init g s0
  obtain ⟨t1, t2⟩ := hinv.table_of_no_live
  rw [alloc_state_free_area hinv t1 (le_refl _) (le_refl _) (by simp [MIN_ORDER, MAX_ORDER]) k k1 k2]
  by_cases hk : k < MAX_ORDER
  · rw [if_pos ⟨k1, hk⟩, if_pos hk, t2 k k1 hk]
  · rw [if_neg (fun h => hk h.2), if_neg hk, if_pos (by omega)]

/-- C12, scenario with `MIN_ORDER = 12` and `MAX_ORDER = 20`: after
`buddy_init`, `buddy_alloc(4096)` returns the arena base and leaves exactly one
block on each free list of the orders 12 to 19 and none on the list of order
20; `buddy_free` of the base then leaves exactly one block on the list of order
20 and none on any other list. -/
theorem scenario_one_page (g : Nat) (s0 : State) :
    MIN_ORDER = 12 ∧ MAX_ORDER = 20 ∧
    (buddy_alloc g (buddy_init g s0) 4096).1 = some g ∧
    (∀ o, 12 ≤ o → o ≤ 19 →
      ((buddy_alloc g (buddy_init g s0) 4096).2.free_area o).length = 1) ∧
    ((buddy_alloc g (buddy_init g s0) 4096).2.free_area 20).length = 0 ∧
    ((buddy_free g (buddy_alloc g (buddy_init g s0) 4096).2 g).free_area 20).length = 1 ∧
    (∀ o, 12 ≤ o → o ≤ 19 →
      ((buddy_free g (buddy_alloc g (buddy_init g s0) 4096).2 g).free_area o).length = 0) := by
  have hinv := Inv.init g s0
  obtain ⟨t1, t2⟩ := hinv.table_of_no_live
  have hfa := init_alloc_free_area g s0
  have hback := free_alloc_state hinv t1 (le_refl _) (le_refl MIN_ORDER)
    (by simp [MIN_ORDER, MAX_ORDER])
  have hg : PAGE_TO_ADDR g 0 = g := by simp [PAGE_TO_ADDR]
  rw [hg] at hback
  rw [init_alloc_eq]
  have hM : MAX_ORDER = 20 := rfl
  have hm : MIN_ORDER = 12 := rfl
  refine ⟨rfl, rfl, rfl, ?_, ?_, ?_, ?_⟩
  · intro o o1 o2
    simp only []
    rw [hfa o (by omega) (by omega), if_pos (by omega)]; rfl
  · simp only []
    rw [← hM, hfa MAX_ORDER (by omega) (by omega), if_neg (by omega)]; rfl
  · simp only []
    rw [← hM, hback MAX_ORDER (by omega) (by omega), t1]; rfl
  · intro o o1 o2
    simp only []
    rw [hback o (by omega) (by omega), t2 o (by omega) (by omega)]; rfl

/-- C13, scenario: after `buddy_init`, two calls `buddy_alloc(4096)` return two
different addresses, the second at the offset of the first XOR 4096; the two
calls of `buddy_free` on them, in either order, end with exactly one block on
the free list of order 20 and every other list empty. -/
theorem scenario_two_pages (g : Nat) (s0 : State) :
    ∃ a1 a2 : Nat,
      (buddy_alloc g (buddy_init g s0) 4096).1 = some a1 ∧
      (buddy_alloc g (buddy_alloc g (buddy_init g s0) 4096).2 4096).1 = some a2 ∧
      a1 ≠ a2 ∧ a2 - g = (a1 - g) ^^^ 4096 ∧
      (∀ l, l = [a1, a2] ∨ l = [a2, a1] →
        ((free_all g (buddy_alloc g (buddy_alloc g (buddy_init g s0) 4096).2 4096).2
          l).free_area 20).length = 1 ∧
        ∀ o, 12 ≤ o → o ≤ 19 →
          (free_all g (buddy_alloc g (buddy_alloc g (buddy_init g s0) 4096).2 4096).2
            l).free_area o = []) := by
  have hinv := Inv.init g s0
  have hr1 : Reachable g (buddy_alloc g (buddy_init g s0) 4096).2
      ((buddy_alloc g (buddy_init g s0) 4096).1.toList ++ []) :=
    Reachable.alloc _ _ 4096 (Reachable.init s0)
  have hr2 := Reachable.alloc _ _ 4096 hr1
  have hinv1 := hr1.inv
  rw [init_alloc_eq] at hr2 hinv1 ⊢
  simp only [Option.toList, List.singleton_append] at hr2 hinv1
  have hfa := init_alloc_free_area g s0
  have hl12 : (alloc_state g (buddy_init g s0) 0 MAX_ORDER MIN_ORDER).free_area MIN_ORDER = [1] := by
    rw [hfa MIN_ORDER (le_refl _) (by simp [MIN_ORDER, MAX_ORDER]),
      if_pos (by simp [MIN_ORDER, MAX_ORDER])]
    decide
  have h2 : buddy_alloc g (alloc_state g (buddy_init g s0) 0 MAX_ORDER MIN_ORDER) 4096 =
      (some (g + 4096), alloc_state g (alloc_state g (buddy_init g s0) 0 MAX_ORDER MIN_ORDER)
        1 MIN_ORDER MIN_ORDER) := by
    rcases buddy_alloc_cases g (alloc_state g (buddy_init g s0) 0 MAX_ORDER MIN_ORDER) 4096 with
      ⟨e0, _⟩ | ⟨r, er, h1, h2, ⟨_, hall⟩ | ⟨k, page, t, g1, g2, g3, g4, e⟩⟩
    · rw [find_order_page] at e0; simp [MIN_ORDER] at e0
    · rw [find_order_page] at er
      have hr : r = MIN_ORDER := by exact_mod_cast er.symm
      have := hall MIN_ORDER (by omega) (by omega)
      rw [hl12] at this
      exact absurd this (by simp)
    · rw [find_order_page] at er
      have hr : r = MIN_ORDER := by exact_mod_cast er.symm
      have hk : k = MIN_ORDER := by
        by_contra hne
        have := g4 MIN_ORDER (by omega) (by omega)
        rw [hl12] at this
        exact absurd this (by simp)
      subst hk
      rw [hl12] at g3
      simp only [List.cons.injEq] at g3
      obtain ⟨rfl, _⟩ := g3
      rw [e, hr, hinv1.addr 1 (by simp [N_PAGES, MAX_ORDER, MIN_ORDER, PAGE_SIZE])]
      simp [PAGE_TO_ADDR, PAGE_SIZE, MIN_ORDER, Nat.add_comm]
  rw [h2] at hr2 ⊢
  simp only [Option.toList, List.singleton_append] at hr2
  refine ⟨g, g + 4096, rfl, rfl, by omega, by simp, ?_⟩
  intro l hl
  have hp : l.Perm [g + 4096, g] := by
    rcases hl with rfl | rfl
    · exact List.Perm.swap _ _ _
    · exact List.Perm.refl _
  have hfin := (free_all_reachable g l _ _ hr2 hp).inv.table_of_no_live
  have hM : MAX_ORDER = 20 := rfl
  have hm : MIN_ORDER = 12 := rfl
  exact ⟨congrArg List.length hfin.1, fun o o1 o2 => hfin.2 o (by omega) (by omega)⟩

/-! ## The report of `buddy_dump` -/

theorem count_eq_length (l : List Nat) : l.foldl (fun c _ => c + 1) 0 = l.length := by
  have : ∀ (l : List Nat) (n : Nat), l.foldl (fun c _ => c + 1) n = n + l.length := by
    intro l
    induction l with
    | nil => intro n; rfl
    | cons a t ih => intro n; rw [List.foldl_cons, ih, List.length_cons]; omega
  rw [this l 0, Nat.zero_add]

theorem buddy_dump_loop_eq (s : State) : ∀ (n o : Nat) (out : String),
    buddy_dump_loop s n o out =
      ((List.range' o n).foldl
        (fun out o => out ++ (toString (s.free_area o).length ++ ":" ++
          toString (2 ^ o / 1024) ++ "K ")) out, s) := by
  intro n
  induction n with
  | zero => intro o out; rfl
  | succ n ih =>
    intro o out
    rw [buddy_dump_loop]
    rw [ih, List.range'_succ, List.foldl_cons, count_eq_length, dump_entry, Nat.one_shiftLeft]

theorem dump_text_congr (s s' : State)
    (h : ∀ o, MIN_ORDER ≤ o → o ≤ MAX_ORDER → (s.free_area o).length = (s'.free_area o).length) :
    dump_text s = dump_text s' := by
  have hl : ∀ (l : List Nat) (out : String), (∀ o, o ∈ l → MIN_ORDER ≤ o ∧ o ≤ MAX_ORDER) →
      l.foldl (fun out o => out ++ (toString (s.free_area o).length ++ ":" ++
          toString (2 ^ o / 1024) ++ "K ")) out =
      l.foldl (fun out o => out ++ (toString (s'.free_area o).length ++ ":" ++
          toString (2 ^ o / 1024) ++ "K ")) out := by
    intro l
    induction l with
    | nil => intro out _; rfl
    | cons a t ih =>
      intro out hm
      rw [List.foldl_cons, List.foldl_cons, h a (hm a (List.mem_cons_self _ _)).1
        (hm a (List.mem_cons_self _ _)).2]
      exact ih _ (fun o ho => hm o (List.mem_cons_of_mem _ ho))
  simp only [dump_text]
  rw [hl _ _ (fun o ho => (mem_range_orders o).1 ho)]

set_option maxRecDepth 100000 in
theorem dump_text_init :
    dump_text (buddy_init 0 zero_state) =
      "0:4K 0:8K 0:16K 0:32K 0:64K 0:128K 0:256K 0:512K 1:1024K \n" := by
  decide

/-- C14: in every state `buddy_dump` writes, for each order from `MIN_ORDER` to
`MAX_ORDER` in increasing order, the number of blocks on the free list of that
order, a colon, `2 ^ o / 1024` and `K `, then a newline, and it leaves the
state as it was; right after `buddy_init` the text is
`0:4K 0:8K 0:16K 0:32K 0:64K 0:128K 0:256K 0:512K 1:1024K ` and a newline. -/
theorem buddy_dump_report (s : State) :
    (buddy_dump s).1 = dump_text s ∧ (buddy_dump s).2 = s ∧
    ∀ g s0, (buddy_dump (buddy_init g s0)).1 =
      "0:4K 0:8K 0:16K 0:32K 0:64K 0:128K 0:256K 0:512K 1:1024K \n" := by
  have h1 : ∀ s : State, (buddy_dump s).1 = dump_text s := by
    intro s
    simp only [buddy_dump, dump_text]
    rw [buddy_dump_loop_eq]
  refine ⟨h1 s, ?_, ?_⟩
  · simp only [buddy_dump]
    rw [buddy_dump_loop_eq]
  · intro g s0
    rw [h1, ← dump_text_init]
    refine dump_text_congr _ _ (fun o o1 o2 => ?_)
    rw [buddy_init_free_area, buddy_init_free_area]
    by_cases h : o = MAX_ORDER
    · rw [if_pos h, if_pos h]
    · rw [if_neg h, if_neg h, if_pos ⟨o1, lt_of_le_of_ne o2 h⟩, if_pos ⟨o1, lt_of_le_of_ne o2 h⟩]

/-! ## The outcome of the loop of `buddy_free` -/

theorem round_down_of_dvd {x k : Nat} (h : 2 ^ k ∣ x) : round_down x k = x :=
  Nat.div_mul_cancel h

theorem round_down_round_down (x : Nat) {j k : Nat} (h : j ≤ k) :
    round_down (round_down x j) k = round_down x k := by
  simp only [round_down]
  have hk : 2 ^ k = 2 ^ j * 2 ^ (k - j) := by rw [← pow_add]; congr 1; omega
  have h1 : x / 2 ^ j * 2 ^ j / 2 ^ k = x / 2 ^ k := by
    rw [hk, ← Nat.div_div_eq_div_mul, Nat.mul_div_cancel _ (Nat.two_pow_pos j),
      Nat.div_div_eq_div_mul]
  rw [h1]

theorem round_down_upper {y i : Nat} (h : 2 ^ (i + 1) ∣ y) :
    round_down (y + 2 ^ i) (i + 1) = y := by
  obtain ⟨c, rfl⟩ := h
  simp only [round_down]
  have hlt : 2 ^ i < 2 ^ (i + 1) := by
    have := Nat.two_pow_pos i; rw [pow_succ_two]; omega
  rw [Nat.add_comm, Nat.add_mul_div_left _ _ (Nat.two_pow_pos (i + 1)), Nat.div_eq_of_lt hlt,
    Nat.zero_add, Nat.mul_comm]

theorem page_size_dvd_round_down (x : Nat) {k : Nat} (hk : MIN_ORDER ≤ k) :
    PAGE_SIZE ∣ round_down x k :=
  page_size_dvd hk (Dvd.intro_left _ rfl)

theorem page_off_round_page (p : Nat) {k : Nat} (hk : MIN_ORDER ≤ k) :
    page_off (round_page p k) = round_down (page_off p) k := by
  simp only [round_page]
  rw [page_off, Nat.div_mul_cancel (page_size_dvd_round_down _ hk)]

theorem round_page_of_dvd {p k : Nat} (hk : MIN_ORDER ≤ k) (h : 2 ^ k ∣ page_off p) :
    round_page p k = p :=
  page_off_inj (by rw [page_off_round_page p hk, round_down_of_dvd h])

theorem merged_page_off {p q i : Nat} (hb : buddies p q i) :
    page_off (if q < p then q else p) = round_down (page_off p) (i + 1) := by
  have h0 := Nat.two_pow_pos i
  rcases hb with ⟨e, d⟩ | ⟨e, d⟩
  · have hlt : ¬ q < p := by
      intro hlt
      have : page_off q < page_off p := by
        simp only [page_off, PAGE_SIZE, MIN_ORDER, Nat.one_shiftLeft] at *; omega
      omega
    rw [if_neg hlt, round_down_of_dvd d]
  · have hlt : q < p := by
      by_contra hlt
      have : page_off p ≤ page_off q := by
        simp only [page_off, PAGE_SIZE, MIN_ORDER, Nat.one_shiftLeft] at *; omega
      omega
    rw [if_pos hlt, e, round_down_upper d]

theorem round_page_merged {p p1 i k : Nat} (h1 : page_off p1 = round_down (page_off p) (i + 1))
    (hk : i + 1 ≤ k) : round_page p1 k = round_page p k := by
  simp only [round_page]
  rw [h1, round_down_round_down _ hk]

theorem buddy_free_loop_post (g : Nat) (live : List Nat) :
    ∀ (n : Nat) (s : State) (p i : Nat), Inv g s live (some (p, i)) → i + n = MAX_ORDER →
      i ≤ (buddy_free_loop g n s p i).2.2 ∧ (buddy_free_loop g n s p i).2.2 ≤ MAX_ORDER ∧
      page_off (buddy_free_loop g n s p i).2.1 =
        round_down (page_off p) (buddy_free_loop g n s p i).2.2 ∧
      (∀ k, i ≤ k → k < (buddy_free_loop g n s p i).2.2 →
        buddy_page (round_page p k) k ∈ s.free_area k) ∧
      ((buddy_free_loop g n s p i).2.2 = MAX_ORDER ∨
        buddy_page (round_page p (buddy_free_loop g n s p i).2.2)
          (buddy_free_loop g n s p i).2.2 ∉ s.free_area (buddy_free_loop g n s p i).2.2) ∧
      (∀ k, MIN_ORDER ≤ k → k ≤ MAX_ORDER →
        (buddy_free_loop g n s p i).1.free_area k =
          if i ≤ k ∧ k < (buddy_free_loop g n s p i).2.2
          then (s.free_area k).erase (buddy_page (round_page p k) k)
          else s.free_area k) := by
  intro n
  induction n with
  | zero =>
    intro s p i h hn
    obtain ⟨w1, w2, w3, w4⟩ := h.part.wf p i (Or.inr (Or.inr rfl))
    simp only [buddy_free_loop]
    refine ⟨le_refl _, w2, (round_down_of_dvd w3).symm, fun k k1 k2 => by omega,
      Or.inl (by omega), fun k _ _ => ?_⟩
    rw [if_neg (by omega)]
  | succ n ih =>
    intro s p i h hn
    obtain ⟨w1, w2, w3, w4⟩ := h.part.wf p i (Or.inr (Or.inr rfl))
    have hrp : round_page p i = p := round_page_of_dvd w1 w3
    rw [buddy_free_loop]
    simp only []
    rw [h.pend_addr, buddy_page_eq]
    by_cases hm : buddy_page p i ∈ s.free_area i
    · rw [decide_eq_true hm]
      simp only [Bool.not_true, Bool.false_eq_true, if_false]
      have hq : is_free s (buddy_page p i) i := ⟨w1, w2, hm⟩
      have hb := buddy_page_spec w1 w3
      have h1 := h.merge_step hq hb (by omega)
      have hoff1 := merged_page_off hb
      obtain ⟨a1, a2, a3, a4, a5, a6⟩ := ih _ _ _ h1 (by omega)
      generalize buddy_free_loop g n (list_del_init s (buddy_page p i))
        (if buddy_page p i < p then buddy_page p i else p) (i + 1) = R at *
      generalize (if buddy_page p i < p then buddy_page p i else p) = p1 at *
      have hrnd : ∀ k, i + 1 ≤ k → round_page p1 k = round_page p k :=
        fun k hk => round_page_merged hoff1 hk
      have hdel : ∀ k, MIN_ORDER ≤ k → k ≤ MAX_ORDER → k ≠ i →
          (list_del_init s (buddy_page p i)).free_area k = s.free_area k := by
        intro k k1 k2 hne
        simp only [list_del_init]
        refine List.erase_of_not_mem (fun hmem => hne ?_)
        exact h.part.same_order
          (Or.inl ⟨k1, k2, hmem⟩ : is_block g s live (some (p, i)) (buddy_page p i) k) (Or.inl hq)
      refine ⟨by omega, a2, ?_, ?_, ?_, ?_⟩
      · rw [a3, hoff1, round_down_round_down _ a1]
      · intro k k1 k2
        by_cases hk : k = i
        · rw [hk, hrp]; exact hm
        · have := a4 k (by omega) k2
          rw [hrnd k (by omega), hdel k (by omega) (by omega) hk] at this
          exact this
      · rcases a5 with e | hn2
        · exact Or.inl e
        · right
          rw [hrnd _ a1, hdel _ (by omega) a2 (by omega)] at hn2
          exact hn2
      · intro k k1 k2
        rw [a6 k k1 k2]
        by_cases hk : k = i
        · rw [if_neg (by omega), if_pos ⟨by omega, by omega⟩, hk, hrp]; rfl
        · rw [hdel k k1 k2 hk]
          by_cases hc : i + 1 ≤ k ∧ k < R.2.2
          · rw [if_pos hc, if_pos ⟨by omega, hc.2⟩, hrnd k hc.1]
          · rw [if_neg hc, if_neg (by omega)]
    · rw [decide_eq_false hm]
      simp only [Bool.not_false, if_true]
      refine ⟨le_refl _, w2, (round_down_of_dvd w3).symm, fun k k1 k2 => by omega, Or.inr ?_,
        fun k _ _ => ?_⟩
      · rw [hrp]; exact hm
      · rw [if_neg (by omega)]

theorem buddy_of_eq (g p k : Nat) (hk : MIN_ORDER ≤ k) :
    buddy_of g (PAGE_TO_ADDR g p) k = buddy_page (round_page p k) k := by
  simp only [buddy_of]
  rw [PAGE_TO_ADDR_sub, ← page_off_round_page p hk, ← buddy_page_eq g]
  simp only [PAGE_TO_ADDR, page_off, Nat.add_comm]

/-- C16, postcondition of the coalescing: in a reachable state, for
`buddy_free(a)` on a live address whose record has order `o`, let `o'` be the
least order from `o` up such that `o' = MAX_ORDER` or the buddy, at order `o'`,
of `a` rounded down to a multiple of `2 ^ o'` is not on the free list of order
`o'`.  Then `buddy_free` removes from the list of every order `k` with
`o ≤ k < o'` exactly the buddy of `a` rounded down to a multiple of `2 ^ k`,
puts in front of the list of order `o'` the page at the offset of `a` rounded
down to a multiple of `2 ^ o'`, with record order `o'`, and leaves every other
list of the table unchanged. -/
theorem coalesce_postcondition (g : Nat) (s : State) (live : List Nat) (a : Nat)
    (h : Reachable g s live) (ha : a ∈ live) :
    ∃ (o o' p' : Nat),
      (s.g_pages (ADDR_TO_PAGE g a)).order = (o : Int) ∧ o ≤ o' ∧ o' ≤ MAX_ORDER ∧
      (∀ k, o ≤ k → k < o' → buddy_of g a k ∈ s.free_area k) ∧
      (o' = MAX_ORDER ∨ buddy_of g a o' ∉ s.free_area o') ∧
      (∀ k, o ≤ k → k < o' →
        (buddy_free g s a).free_area k = (s.free_area k).erase (buddy_of g a k)) ∧
      (buddy_free g s a).free_area o' = p' :: s.free_area o' ∧
      ((buddy_free g s a).g_pages p').addr - g = round_down (a - g) o' ∧
      ((buddy_free g s a).g_pages p').order = (o' : Int) ∧
      (∀ k, MIN_ORDER ≤ k → k ≤ MAX_ORDER → ¬ (o ≤ k ∧ k ≤ o') →
        (buddy_free g s a).free_area k = s.free_area k) := by
  obtain ⟨p, o, e, hor, hinv⟩ := h.inv.reclaim ha
  obtain ⟨w1, w2, w3, w4⟩ := hinv.part.wf p o (Or.inr (Or.inr rfl))
  obtain ⟨hl, _⟩ := buddy_free_loop_inv g (live.erase a) (MAX_ORDER - o) s p o hinv (by omega)
  obtain ⟨a1, a2, a3, a4, a5, a6⟩ :=
    buddy_free_loop_post g (live.erase a) (MAX_ORDER - o) s p o hinv (by omega)
  have hpg := buddy_free_loop_pages g (MAX_ORDER - o) s p o
  have hbf : buddy_free g s a =
      list_add (set_order (buddy_free_loop g (MAX_ORDER - o) s p o).1
        (buddy_free_loop g (MAX_ORDER - o) s p o).2.1 (buddy_free_loop g (MAX_ORDER - o) s p o).2.2)
        (buddy_free_loop g (MAX_ORDER - o) s p o).2.1 (buddy_free_loop g (MAX_ORDER - o) s p o).2.2 := by
    simp only [buddy_free]
    rw [e, ADDR_TO_PAGE_PAGE_TO_ADDR, hor, Int.toNat_ofNat]
  rw [hbf]
  generalize buddy_free_loop g (MAX_ORDER - o) s p o = R at *
  have hlt := blk_wf_lt (hl.part.wf _ _ (Or.inr (Or.inr rfl)))
  subst e
  have hfa : ∀ k, (list_add (set_order R.1 R.2.1 R.2.2) R.2.1 R.2.2).free_area k =
      if k = R.2.2 then R.2.1 :: R.1.free_area R.2.2 else R.1.free_area k := fun k => rfl
  refine ⟨o, R.2.2, R.2.1, by rw [ADDR_TO_PAGE_PAGE_TO_ADDR]; exact hor, a1, a2, ?_, ?_, ?_, ?_,
    ?_, ?_, ?_⟩
  · intro k k1 k2
    rw [buddy_of_eq g p k (by omega)]; exact a4 k k1 k2
  · rcases a5 with e | hn
    · exact Or.inl e
    · right; rw [buddy_of_eq g p _ (by omega)]; exact hn
  · intro k k1 k2
    rw [hfa, if_neg (by omega), a6 k (by omega) (by omega), if_pos ⟨k1, k2⟩,
      buddy_of_eq g p k (by omega)]
  · rw [hfa, if_pos rfl, a6 _ (by omega) a2, if_neg (by omega)]
  · rw [list_add_pages, set_order_addr, hpg, h.inv.addr _ hlt, PAGE_TO_ADDR_sub, PAGE_TO_ADDR_sub]
    exact a3
  · rw [list_add_pages, set_order_order_eq]
  · intro k k1 k2 hk
    rw [hfa, if_neg (by omega), a6 k k1 k2, if_neg (by omega)]

set_option maxRecDepth 100000 in
theorem coalesce_postcondition_witness :
    Reachable 0 (buddy_alloc 0 (buddy_init 0 zero_state) 4096).2
      ((buddy_alloc 0 (buddy_init 0 zero_state) 4096).1.toList ++ []) ∧
    0 ∈ (buddy_alloc 0 (buddy_init 0 zero_state) 4096).1.toList ++ [] ∧
    ∃ (o o' p' : Nat),
      ((buddy_alloc 0 (buddy_init 0 zero_state) 4096).2.g_pages (ADDR_TO_PAGE 0 0)).order =
        (o : Int) ∧ o ≤ o' ∧ o' ≤ MAX_ORDER ∧
      (∀ k, o ≤ k → k < o' →
        buddy_of 0 0 k ∈ (buddy_alloc 0 (buddy_init 0 zero_state) 4096).2.free_area k) ∧
      (o' = MAX_ORDER ∨
        buddy_of 0 0 o' ∉ (buddy_alloc 0 (buddy_init 0 zero_state) 4096).2.free_area o') ∧
      (∀ k, o ≤ k → k < o' →
        (buddy_free 0 (buddy_alloc 0 (buddy_init 0 zero_state) 4096).2 0).free_area k =
          ((buddy_alloc 0 (buddy_init 0 zero_state) 4096).2.free_area k).erase (buddy_of 0 0 k)) ∧
      (buddy_free 0 (buddy_alloc 0 (buddy_init 0 zero_state) 4096).2 0).free_area o' =
        p' :: (buddy_alloc 0 (buddy_init 0 zero_state) 4096).2.free_area o' ∧
      ((buddy_free 0 (buddy_alloc 0 (buddy_init 0 zero_state) 4096).2 0).g_pages p').addr - 0 =
        round_down (0 - 0) o' ∧
      ((buddy_free 0 (buddy_alloc 0 (buddy_init 0 zero_state) 4096).2 0).g_pages p').order =
        (o' : Int) ∧
      (∀ k, MIN_ORDER ≤ k → k ≤ MAX_ORDER → ¬ (o ≤ k ∧ k ≤ o') →
        (buddy_free 0 (buddy_alloc 0 (buddy_init 0 zero_state) 4096).2 0).free_area k =
          (buddy_alloc 0 (buddy_init 0 zero_state) 4096).2.free_area k) :=
  ⟨Reachable.alloc _ _ _ (Reachable.init _), by decide,
    coalesce_postcondition 0 _ _ 0 (Reachable.alloc _ _ 4096 (Reachable.init zero_state))
      (by decide)⟩

/-! ## Index safety -/

theorem n_pages_eq : 2 ^ (MAX_ORDER - MIN_ORDER) = N_PAGES := by
  simp [N_PAGES, MAX_ORDER, MIN_ORDER, PAGE_SIZE]

theorem page_lt_of_in_arena {q o : Nat} (h : page_off q + 2 ^ o ≤ 2 ^ MAX_ORDER) :
    q < 2 ^ (MAX_ORDER - MIN_ORDER) := by
  have hp : 1 ≤ 2 ^ o := Nat.two_pow_pos o
  simp only [page_off, PAGE_SIZE, MAX_ORDER, MIN_ORDER, Nat.one_shiftLeft] at h ⊢
  norm_num at h ⊢
  omega

theorem split_traced_spec (g : Nat) (live : List Nat) (p r : Nat) (hr : MIN_ORDER ≤ r) :
    ∀ (o : Nat) (s : State), Inv g s live (some (p, o)) → r ≤ o →
      (split_traced g s p o r).1 = split g s p o r ∧
      ∀ x, x ∈ (split_traced g s p o r).2 → x.ok := by
  intro o
  induction o with
  | zero =>
    intro s _ hle
    simp only [MIN_ORDER] at hr; omega
  | succ o ih =>
    intro s h hle
    rw [split_traced, split]
    by_cases he : o + 1 = r
    · rw [if_pos he, if_pos he]
      refine ⟨rfl, fun x hx => ?_⟩
      rw [List.mem_singleton.1 hx]
      exact hle
    · rw [if_neg he, if_neg he]
      simp only []
      rw [h.pend_addr, buddy_page_eq]
      have ho : MIN_ORDER ≤ o := by omega
      have ho2 : o ≤ MAX_ORDER := by
        have := (h.part.wf p (o + 1) (Or.inr (Or.inr rfl))).2.1; omega
      have h2 := h.split_step ho
      have hw : blk_wf (buddy_page p o) o :=
        h2.part.wf _ _ (Or.inl ((is_free_add s _ o _ o ho ho2 _).2 (Or.inr ⟨rfl, rfl⟩)))
      obtain ⟨e1, e2⟩ := ih _ h2 (by omega)
      refine ⟨e1, fun x hx => ?_⟩
      rcases List.mem_cons.1 hx with rfl | hx
      · exact hle
      rcases List.mem_cons.1 hx with rfl | hx
      · exact page_lt_of_in_arena hw.2.2.2
      rcases List.mem_cons.1 hx with rfl | hx
      · exact ⟨ho, ho2⟩
      · exact e2 x hx

theorem buddy_alloc_loop_traced_spec (g : Nat) (s : State) (live : List Nat) (req : Nat)
    (h : Inv g s live none) (hr : MIN_ORDER ≤ req) :
    ∀ (n i : Nat), req ≤ i → i + n = MAX_ORDER + 1 →
      (buddy_alloc_loop_traced g s req n i).1 = buddy_alloc_loop g s req n i ∧
      ∀ x, x ∈ (buddy_alloc_loop_traced g s req n i).2 → x.ok := by
  intro n
  induction n with
  | zero =>
    intro i _ _
    exact ⟨rfl, fun x hx => absurd hx (List.not_mem_nil _)⟩
  | succ n ih =>
    intro i hi hn
    rw [buddy_alloc_loop_traced, buddy_alloc_loop]
    cases hl : s.free_area i with
    | nil =>
      simp only []
      obtain ⟨e1, e2⟩ := ih (i + 1) (by omega) (by omega)
      refine ⟨e1, fun x hx => ?_⟩
      rcases List.mem_cons.1 hx with rfl | hx
      · exact ⟨by omega, by omega⟩
      · exact e2 x hx
    | cons page t =>
      simp only []
      have hf : is_free s page i := ⟨by omega, by omega, by rw [hl]; exact List.mem_cons_self _ _⟩
      obtain ⟨e1, e2⟩ := split_traced_spec g live page req hr i _ (h.take hf) hi
      rw [e1]
      refine ⟨rfl, fun x hx => ?_⟩
      rcases List.mem_cons.1 hx with rfl | hx
      · exact ⟨by omega, by omega⟩
      rcases List.mem_cons.1 hx with rfl | hx
      · exact List.cons_ne_nil _ _
      rcases List.mem_cons.1 hx with rfl | hx
      · exact page_lt_of_in_arena (h.part.wf page i (Or.inl hf)).2.2.2
      · exact e2 x hx

theorem buddy_free_loop_traced_spec (g : Nat) (live : List Nat) :
    ∀ (n : Nat) (s : State) (p i : Nat), Inv g s live (some (p, i)) → i + n = MAX_ORDER →
      (buddy_free_loop_traced g n s p i).1 = buddy_free_loop g n s p i ∧
      ∀ x, x ∈ (buddy_free_loop_traced g n s p i).2 → x.ok := by
  intro n
  induction n with
  | zero =>
    intro s p i _ _
    exact ⟨rfl, fun x hx => absurd hx (List.not_mem_nil _)⟩
  | succ n ih =>
    intro s p i h hn
    obtain ⟨w1, w2, w3, w4⟩ := h.part.wf p i (Or.inr (Or.inr rfl))
    have hb := buddy_page_spec w1 w3
    have hbl : buddy_page p i < 2 ^ (MAX_ORDER - MIN_ORDER) :=
      page_lt_of_in_arena (buddies_in_arena ⟨w1, w2, w3, w4⟩ (by omega) hb)
    rw [buddy_free_loop_traced, buddy_free_loop]
    simp only []
    rw [h.pend_addr, buddy_page_eq]
    by_cases hm : buddy_page p i ∈ s.free_area i
    · rw [decide_eq_true hm]
      simp only [Bool.not_true, Bool.false_eq_true, if_false]
      obtain ⟨e1, e2⟩ := ih _ _ _ (h.merge_step ⟨w1, w2, hm⟩ hb (by omega)) (by omega)
      refine ⟨e1, fun x hx => ?_⟩
      rcases List.mem_cons.1 hx with rfl | hx
      · exact hbl
      rcases List.mem_cons.1 hx with rfl | hx
      · exact ⟨w1, w2⟩
      · exact e2 x hx
    · rw [decide_eq_false hm]
      simp only [Bool.not_false, if_true]
      refine ⟨trivial, fun x hx => ?_⟩
      rcases List.mem_cons.1 hx with rfl | hx
      · exact hbl
      · rw [List.mem_singleton.1 hx]; exact ⟨w1, w2⟩

/-- C18, index safety: in a reachable state `buddy_alloc` on any size and
`buddy_free` on a live address make only safe accesses: every page index they
and `split` compute is below `2 ^ (MAX_ORDER - MIN_ORDER)`, every order that
indexes `free_area` is from `MIN_ORDER` to `MAX_ORDER`, `split` is entered with
`order ≥ requested` only, and the first element of a list is taken as a page
only when the list is not empty. -/
theorem index_safety (g : Nat) (s : State) (live : List Nat) (h : Reachable g s live) :
    (∀ size, (buddy_alloc_traced g s size).1 = buddy_alloc g s size ∧
      ∀ x, x ∈ (buddy_alloc_traced g s size).2 → x.ok) ∧
    (∀ a, a ∈ live → (buddy_free_traced g s a).1 = buddy_free g s a ∧
      ∀ x, x ∈ (buddy_free_traced g s a).2 → x.ok) := by
  constructor
  · intro size
    simp only [buddy_alloc_traced, buddy_alloc]
    rcases find_order_cases size with ⟨e, _⟩ | ⟨r, e, h1, h2, _, _⟩
    · rw [if_pos e, if_pos e]
      exact ⟨rfl, fun x hx => absurd hx (List.not_mem_nil _)⟩
    · have hne : ¬ ((r : Int) = -1) := by omega
      rw [e, if_neg hne, if_neg hne, Int.toNat_ofNat]
      exact buddy_alloc_loop_traced_spec g s live r h.inv h1 _ r (le_refl _) (by omega)
  · intro a ha
    obtain ⟨p, o, e, hor, hinv⟩ := h.inv.reclaim ha
    obtain ⟨w1, w2, w3, w4⟩ := hinv.part.wf p o (Or.inr (Or.inr rfl))
    obtain ⟨e1, e2⟩ := buddy_free_loop_traced_spec g (live.erase a) (MAX_ORDER - o) s p o hinv
      (by omega)
    obtain ⟨hl, _⟩ := buddy_free_loop_inv g (live.erase a) (MAX_ORDER - o) s p o hinv (by omega)
    obtain ⟨v1, v2, _, _⟩ := hl.part.wf _ _ (Or.inr (Or.inr rfl))
    simp only [buddy_free_traced, buddy_free]
    rw [e, ADDR_TO_PAGE_PAGE_TO_ADDR, hor, Int.toNat_ofNat, e1]
    refine ⟨rfl, fun x hx => ?_⟩
    rcases List.mem_cons.1 hx with rfl | hx
    · exact page_lt_of_in_arena w4
    rcases List.mem_append.1 hx with hx | hx
    · exact e2 x hx
    · rw [List.mem_singleton.1 hx]; exact ⟨v1, v2⟩

theorem index_safety_witness :
    Reachable 0 (buddy_alloc 0 (buddy_init 0 zero_state) 4096).2
      ((buddy_alloc 0 (buddy_init 0 zero_state) 4096).1.toList ++ []) ∧
    ((∀ size, (buddy_alloc_traced 0 (buddy_alloc 0 (buddy_init 0 zero_state) 4096).2 size).1 =
        buddy_alloc 0 (buddy_alloc 0 (buddy_init 0 zero_state) 4096).2 size ∧
      ∀ x, x ∈ (buddy_alloc_traced 0 (buddy_alloc 0 (buddy_init 0 zero_state) 4096).2 size).2 →
        x.ok) ∧
    (∀ a, a ∈ (buddy_alloc 0 (buddy_init 0 zero_state) 4096).1.toList ++ [] →
      (buddy_free_traced 0 (buddy_alloc 0 (buddy_init 0 zero_state) 4096).2 a).1 =
        buddy_free 0 (buddy_alloc 0 (buddy_init 0 zero_state) 4096).2 a ∧
      ∀ x, x ∈ (buddy_free_traced 0 (buddy_alloc 0 (buddy_init 0 zero_state) 4096).2 a).2 →
        x.ok)) :=
  ⟨Reachable.alloc _ _ _ (Reachable.init _),
    index_safety _ _ _ (Reachable.alloc _ _ _ (Reachable.init _))⟩

/-! ## Sizes that are not positive -/

theorem find_order_of_le_page {size : Int} (h : size ≤ 4096) : find_order size = (MIN_ORDER : Int) := by
  have e : find_order size =
      find_order_loop size (MAX_ORDER - MIN_ORDER + 1) MIN_ORDER := rfl
  rw [e, find_order_loop]
  have : (((1 <<< MIN_ORDER : Nat) : Int)) ≥ size := by
    have : ((1 <<< MIN_ORDER : Nat) : Int) = 4096 := by decide
    omega
  rw [if_pos this]

/-- C19: for every `size ≤ 0`, `find_order(size)` is `MIN_ORDER` and
`buddy_alloc(size)` is not rejected: in every state it returns what
`buddy_alloc(1)` returns and leaves the state `buddy_alloc(1)` leaves, and
whenever a free list of the table is not empty it returns the address of a page
whose record then has order `MIN_ORDER`. -/
theorem buddy_alloc_nonpositive (g : Nat) (s : State) (size : Int) (h : size ≤ 0) :
    find_order size = (MIN_ORDER : Int) ∧
    buddy_alloc g s size = buddy_alloc g s 1 ∧
    ((∃ i, MIN_ORDER ≤ i ∧ i ≤ MAX_ORDER ∧ s.free_area i ≠ []) →
      ∃ (i page : Nat), MIN_ORDER ≤ i ∧ i ≤ MAX_ORDER ∧ page ∈ s.free_area i ∧
        (buddy_alloc g s size).1 = some (s.g_pages page).addr ∧
        ((buddy_alloc g s size).2.g_pages page).order = (MIN_ORDER : Int)) := by
  have e1 := find_order_of_le_page (show size ≤ 4096 by omega)
  have e2 := find_order_of_le_page (show (1 : Int) ≤ 4096 by omega)
  refine ⟨e1, ?_, ?_⟩
  · simp only [buddy_alloc]
    rw [e1, e2]
  · rintro ⟨i, i1, i2, hne⟩
    rcases buddy_alloc_cases g s size with
      ⟨e0, _⟩ | ⟨r, er, h1, h2, ⟨_, hall⟩ | ⟨k, page, t, g1, g2, g3, _, e⟩⟩
    · rw [e1] at e0; simp [MIN_ORDER] at e0
    · rw [e1] at er
      have hr : r = MIN_ORDER := by exact_mod_cast er.symm
      exact absurd (hall i (by omega) i2) hne
    · rw [e1] at er
      have hr : r = MIN_ORDER := by exact_mod_cast er.symm
      refine ⟨k, page, by omega, g2, by rw [g3]; exact List.mem_cons_self _ _, by rw [e], ?_⟩
      rw [e]
      simp only [alloc_state]
      rw [set_order_order_eq, hr]

theorem buddy_alloc_nonpositive_witness :
    (-5 : Int) ≤ 0 ∧
    (find_order (-5) = (MIN_ORDER : Int) ∧
    buddy_alloc 0 two_lists_state (-5) = buddy_alloc 0 two_lists_state 1 ∧
    ((∃ i, MIN_ORDER ≤ i ∧ i ≤ MAX_ORDER ∧ two_lists_state.free_area i ≠ []) →
      ∃ (i page : Nat), MIN_ORDER ≤ i ∧ i ≤ MAX_ORDER ∧ page ∈ two_lists_state.free_area i ∧
        (buddy_alloc 0 two_lists_state (-5)).1 = some (two_lists_state.g_pages page).addr ∧
        ((buddy_alloc 0 two_lists_state (-5)).2.g_pages page).order = (MIN_ORDER : Int))) :=
  ⟨by decide, buddy_alloc_nonpositive 0 two_lists_state (-5) (by decide)⟩

end Buddy
